import Mathlib

/-
Verification of the chatbot's retrieval-preparation and retrieval-serving
core (src/cox): token-budget chunking with overlap (embedding/chunker.py),
the retriever and domain gate (retrieval/retriever.py), and the bounded
conversation history (memory/conversation.py).

Text is modelled as `List Char`.  The external tokenizer (tiktoken, an
external collaborator used only for budget accounting) is a parameter
`tok : Text → Nat`; concrete witnesses instantiate it with an executable
counting function.  Python dict iteration is modelled by association lists
in iteration order.
-/

abbrev Text := List Char

abbrev Tok := Text → Nat

/-- Python `\s` / `str.strip()` whitespace (ASCII range). -/
def isSpaceCh (c : Char) : Bool :=
  c = ' ' || c = '\t' || c = '\n' || c = '\r' || c = '\x0b' || c = '\x0c'

def isPunctCh (c : Char) : Bool :=
  c = '.' || c = '!' || c = '?'

def isQuoteCh (c : Char) : Bool :=
  c = '"' || c = '\''

/-- Lookbehind of the sentence-split pattern of `split_into_sentences`
(chunker.py line 13), evaluated on the already consumed text, most recent
character first.  A split point is whitespace preceded by terminal
punctuation `.!?`, or by a quote that itself follows terminal punctuation;
the Korean alternatives `다.` `요.` `니다.` `세요.` all end in a period and
are subsumed by the first case. -/
def bdry : List Char → Bool
  | [] => false
  | [c] => isPunctCh c
  | c :: d :: _ => isPunctCh c || (isQuoteCh c && isPunctCh d)

/-- `re.split` on the sentence pattern: `ctx` is the consumed text reversed,
`cur` the current piece reversed.  Whitespace runs after a split point land
at the front of the following piece and are removed by the strip below,
exactly as Python's consumed `\s+` plus `.strip()` does. -/
def rawSplit (ctx cur : List Char) : List Char → List (List Char)
  | [] => [cur.reverse]
  | c :: cs =>
    if isSpaceCh c && bdry ctx then cur.reverse :: rawSplit (c :: ctx) [] cs
    else rawSplit (c :: ctx) (c :: cur) cs

/-- Python `str.strip()`. -/
def stripT (t : Text) : Text :=
  ((t.dropWhile isSpaceCh).reverse.dropWhile isSpaceCh).reverse

/-- chunker.py `split_into_sentences`: split, strip each piece, keep the
non-empty ones. -/
def split_into_sentences (t : Text) : List Text :=
  ((rawSplit [] [] t).map stripT).filter (fun s => !s.isEmpty)

/-- Python `str.split()` (no argument): split on whitespace runs, discarding
empty pieces. -/
def splitWordsAux (cur : Text) : Text → List Text
  | [] => if cur.isEmpty then [] else [cur.reverse]
  | c :: cs =>
    if isSpaceCh c then
      if cur.isEmpty then splitWordsAux [] cs else cur.reverse :: splitWordsAux [] cs
    else splitWordsAux (c :: cur) cs

def splitWords (t : Text) : List Text := splitWordsAux [] t

/-- Python `" ".join`. -/
def joinSp (ps : List Text) : Text := List.intercalate [' '] ps

/-- A produced chunk `(question, answer_fragment)`. -/
abbrev Chunk := Text × Text

/-- chunker.py lines 74-82, the word-granularity fallback loop: greedy
packing of one oversized sentence's words; each word is costed as
`count_tokens(word + " ")`. -/
def packWords (tok : Tok) (q : Text) (avail : Nat) (cks : List Chunk)
    (temp : List Text) (tt : Nat) : List Text → List Chunk × List Text × Nat
  | [] => (cks, temp, tt)
  | w :: ws =>
    if tt + tok (w ++ [' ']) ≤ avail then
      packWords tok q avail cks (temp ++ [w]) (tt + tok (w ++ [' '])) ws
    else
      packWords tok q avail (cks ++ [(q, joinSp temp)]) [w] (tok (w ++ [' '])) ws

/-- chunker.py lines 69-89: run the word loop over `sentence.split()`, then
either adopt the last partial word group as the running chunk or clear it. -/
def wordFallback (tok : Tok) (q : Text) (avail : Nat) (cks : List Chunk)
    (s : Text) : List Chunk × List Text × Nat :=
  let r := packWords tok q avail cks [] 0 (splitWords s)
  if r.2.1.isEmpty then (r.1, [], 0) else r

/-- chunker.py lines 57-89, the sentence-granularity greedy packing loop.
State is (emitted chunks, running chunk parts, running token count). -/
def packSents (tok : Tok) (q : Text) (avail : Nat) (cks : List Chunk)
    (cur : List Text) (ct : Nat) : List Text → List Chunk × List Text × Nat
  | [] => (cks, cur, ct)
  | s :: ss =>
    if ct + tok s ≤ avail then packSents tok q avail cks (cur ++ [s]) (ct + tok s) ss
    else
      let cks1 := if cur.isEmpty then cks else cks ++ [(q, joinSp cur)]
      if avail < tok s then
        let r := wordFallback tok q avail cks1 s
        packSents tok q avail r.1 r.2.1 r.2.2 ss
      else packSents tok q avail cks1 [s] (tok s) ss

/-- chunker.py lines 51-92: the raw (pre-overlap) chunk sequence, flushing
the final running chunk if non-empty. -/
def rawChunks (tok : Tok) (q : Text) (avail : Nat) (sents : List Text) : List Chunk :=
  let r := packSents tok q avail [] [] 0 sents
  if r.2.1.isEmpty then r.1 else r.1 ++ [(q, joinSp r.2.1)]

/-- Python `int(n * r)` for a natural `n` and rational `r`: truncation of
`n * r` toward zero, computed on the numerator and denominator
(`Int.div` is T-division, exactly Python's `int()` truncation). -/
def truncMulNat (n : Nat) (r : ℚ) : Nat :=
  (Int.tdiv ((n : Int) * r.num) (r.den : Int)).toNat

/-- chunker.py lines 101-105: the overlap sentences selected from the
previous chunk's answer before the budget-driven drop step.
`overlap_count = max(1, int(len(prev_sentences) * overlap_ratio))`;
`prev_sentences[-overlap_count:]` takes the last `overlap_count`
sentences. -/
def overlapSel (r : ℚ) (prev : Text) : List Text :=
  let ps := split_into_sentences prev
  let oc := max 1 (truncMulNat ps.length r)
  if oc < ps.length then ps.drop (ps.length - oc) else ps

/-- chunker.py lines 109-111, the drop loop: remove leading overlap
sentences while `count_tokens(overlapped_answer) + question_tokens` exceeds
the budget and overlap sentences remain.  Returns the surviving overlap
sentences. -/
def trimmedOverlap (tok : Tok) (qt maxt : Nat) (curr : Text) : List Text → List Text
  | [] => []
  | h :: t =>
    if maxt < tok (joinSp (h :: t) ++ ' ' :: curr) + qt then
      trimmedOverlap tok qt maxt curr t
    else h :: t

/-- chunker.py line 107/111: the overlapped answer
`" ".join(overlap_sentences) + " " + curr_answer` for the surviving
overlap sentences. -/
def overlapStep (tok : Tok) (qt maxt : Nat) (r : ℚ) (prev curr : Text) : Text :=
  joinSp (trimmedOverlap tok qt maxt curr (overlapSel r prev)) ++ ' ' :: curr

/-- chunker.py lines 94-115: first chunk kept as is, each later chunk's
answer rebuilt from the previous raw chunk's tail sentences plus its own
answer. -/
def applyOverlap (tok : Tok) (q : Text) (qt maxt : Nat) (r : ℚ)
    (cks : List Chunk) : List Chunk :=
  match cks with
  | [] => []
  | c0 :: rest =>
    c0 :: (cks.zip rest).map (fun pc => (q, overlapStep tok qt maxt r pc.1.2 pc.2.2))

/-- chunker.py lines 47-117: everything after the oversized-question check,
starting from the sentence split of the answer. -/
def chunkBody (tok : Tok) (q : Text) (sents : List Text) (maxt : Nat) (r : ℚ) : List Chunk :=
  let cks := rawChunks tok q (maxt - tok q) sents
  if 1 < cks.length ∧ 0 < r then applyOverlap tok q (tok q) maxt r cks else cks

/-- chunker.py `chunk_qna_with_overlap`.  The `ValueError` for an oversized
question (line 44-45, the `OversizedQuestion` condition) is the `.error`
case; `max_tokens // 2` is Nat division. -/
def chunk_qna_with_overlap (tok : Tok) (q a : Text) (maxt : Nat) (r : ℚ) :
    Except Unit (List Chunk) :=
  if tok q + tok a ≤ maxt then .ok [(q, a)]
  else if maxt / 2 < tok q then .error ()
  else .ok (chunkBody tok q (split_into_sentences a) maxt r)

/-- One record of the corpus-level result dict; the dense zero-based
`chunk_id` is the list position. -/
structure ChunkRec where
  question : Text
  answer : Text
  original_question : Text
deriving DecidableEq

/-- chunker.py `process_qna_dict`: chunks every pair of the corpus in
iteration order.  There is no exception handling around
`chunk_qna_with_overlap`, so a raised `ValueError` propagates and aborts the
whole batch. -/
def process_qna_dict (tok : Tok) (maxt : Nat) (r : ℚ) :
    List (Text × Text) → Except Unit (List ChunkRec)
  | [] => .ok []
  | (q, a) :: rest =>
    match chunk_qna_with_overlap tok q a maxt r with
    | .error e => .error e
    | .ok cks =>
      match process_qna_dict tok maxt r rest with
      | .error e => .error e
      | .ok others => .ok (cks.map (fun c => ⟨c.1, c.2, q⟩) ++ others)

/- ----------------------------------------------------------------- -/
/- Retriever and domain gate (retrieval/retriever.py)                 -/
/- ----------------------------------------------------------------- -/

structure MetaRec where
  answer : Text
  original_question : Text
deriving DecidableEq

/-- The inner parallel arrays of one vector-index query response
(`results["documents"][0]`, `results["metadatas"][0]`,
`results["distances"][0]`). -/
structure QueryResponse where
  documents : List Text
  metadatas : List MetaRec
  distances : List ℚ

structure RetrievalResult where
  question : Text
  answer : Text
  original_question : Text
  similarity : ℚ
deriving DecidableEq

/-- retriever.py lines 44-53: positional formatting of the index response,
`similarity = 1 - distance`, order preserved. -/
def FAQRetriever.retrieve (resp : QueryResponse) : List RetrievalResult :=
  (List.range resp.documents.length).map (fun i =>
    { question := resp.documents.getD i []
      answer := (resp.metadatas.getD i ⟨[], []⟩).answer
      original_question := (resp.metadatas.getD i ⟨[], []⟩).original_question
      similarity := 1 - resp.distances.getD i 0 })

/-- Python `str.lower`, character-wise (Korean has no case). -/
def lowerT (t : Text) : Text := t.map Char.toLower

/-- `needle` matches at the head of `hay`. -/
def subAt : Text → Text → Bool
  | [], _ => true
  | _ :: _, [] => false
  | a :: as, b :: bs => (a = b) && subAt as bs

/-- Python substring test `needle in hay`. -/
def hasSub : Text → Text → Bool
  | needle, [] => needle.isEmpty
  | needle, b :: t => subAt needle (b :: t) || hasSub needle t

/-- config.py `DOMAIN_KEYWORDS`. -/
def DOMAIN_KEYWORDS : List Text :=
  ["스마트스토어", "판매", "상품", "등록", "배송", "결제", "정산", "환불",
   "취소", "반품", "교환", "네이버", "쇼핑", "가입", "계정", "판매자",
   "구매자", "고객", "주문", "정책", "수수료", "정보", "인증", "심사"].map String.toList

/-- retriever.py `is_domain_question`.  The second component counts the
vector-retrieval (and hence embedding) calls made: 0 when the lexical gate
short-circuits, 1 otherwise.  `resp` is the index's response to the one
`retrieve(query, 1)` call the fallback would make. -/
def FAQRetriever.is_domain_question (kws : List Text) (resp : QueryResponse)
    (query : Text) (threshold : ℚ) : Bool × Nat :=
  let ql := lowerT query
  if kws.any (fun kw => hasSub (lowerT kw) ql) then (true, 0)
  else
    match FAQRetriever.retrieve resp with
    | [] => (false, 1)
    | r :: _ => (if threshold ≤ r.similarity then true else false, 1)

/-- Modelled from the spec wording of the domain gate (C4): keyword hit
returns true with no retrieval call; otherwise true exactly when
`retrieve(query, 1)` is non-empty with first similarity at or above the
threshold, false in all remaining cases. -/
def is_domain_spec (kws : List Text) (resp : QueryResponse)
    (query : Text) (threshold : ℚ) : Bool × Nat :=
  if kws.any (fun kw => hasSub (lowerT kw) (lowerT query)) then (true, 0)
  else
    ((!(FAQRetriever.retrieve resp).isEmpty
        && decide (threshold ≤ ((FAQRetriever.retrieve resp).headD ⟨[], [], [], 0⟩).similarity)), 1)

/- ----------------------------------------------------------------- -/
/- Conversation store (memory/conversation.py)                        -/
/- ----------------------------------------------------------------- -/

/-- config.py `MAX_CONVERSATION_HISTORY`. -/
def MAX_CONVERSATION_HISTORY : Nat := 5

/-- The timestamp is abstract; `datetime.isoformat`/`fromisoformat` are
exact inverses, so the dict form carries the same value. -/
structure Message where
  role : Text
  content : Text
  timestamp : Nat
deriving DecidableEq

structure Conversation where
  session_id : Text
  max_history : Nat
  messages : List Message
deriving DecidableEq

/-- Python slice `l[-k:]`.  For `k = 0` the slice `l[-0:] = l[0:]` is the
whole list, not the empty suffix. -/
def lastSlice (l : List α) (k : Nat) : List α :=
  if k = 0 then l else l.drop (l.length - k)

/-- conversation.py `Conversation.add_message` (lines 70-82): append, then
trim to the last `max_history * 2` messages when the bound is exceeded.
`now` stands for `datetime.now()`. -/
def Conversation.add_message (c : Conversation) (role content : Text) (now : Nat) :
    Conversation :=
  let msgs := c.messages ++ [⟨role, content, now⟩]
  if c.max_history * 2 < msgs.length then
    { c with messages := lastSlice msgs (c.max_history * 2) }
  else { c with messages := msgs }

structure MessageDict where
  role : Text
  content : Text
  timestamp_iso : Nat
deriving DecidableEq

def Message.to_dict (m : Message) : MessageDict :=
  ⟨m.role, m.content, m.timestamp⟩

def Message.from_dict (d : MessageDict) : Message :=
  ⟨d.role, d.content, d.timestamp_iso⟩

/-- conversation.py `Conversation.to_dict`: session id and messages only;
`max_history` is not exported. -/
structure ConversationDict where
  session_id : Text
  messages : List MessageDict

def Conversation.to_dict (c : Conversation) : ConversationDict :=
  ⟨c.session_id, c.messages.map Message.to_dict⟩

/-- conversation.py `Conversation.from_dict`: `cls(session_id=...)` uses the
constructor default `MAX_CONVERSATION_HISTORY` for `max_history`. -/
def Conversation.from_dict (d : ConversationDict) : Conversation :=
  { session_id := d.session_id
    max_history := MAX_CONVERSATION_HISTORY
    messages := d.messages.map Message.from_dict }

/-- conversation.py `ConversationManager.load_from_file`: rebuild every
session from its dict form (the file's keyed record, in iteration order). -/
def ConversationManager.load_from_file (data : List (Text × ConversationDict)) :
    List (Text × Conversation) :=
  data.map (fun sd => (sd.1, Conversation.from_dict sd.2))

/- ----------------------------------------------------------------- -/
/- Auxiliary executable notions used by the statements                -/
/- ----------------------------------------------------------------- -/

/-- A concrete tokenizer instance for witnesses: one token per character
outside whitespace. -/
def countNonSpace (t : Text) : Nat := (t.filter (fun c => !isSpaceCh c)).length

/-- The rational 1/5 (the shipped overlap ratio), given in normalized form
so that concrete runs reduce in the kernel. -/
def ratFifth : ℚ := ⟨1, 5, by decide, by decide⟩

/-- The rational 1/2, given in normalized form. -/
def ratHalf : ℚ := ⟨1, 2, by decide, by decide⟩

/-- Scan `rest` from consumed context `ctx` and check that no sentence-split
point occurs. -/
def passThrough (ctx : List Char) : List Char → Bool
  | [] => true
  | c :: cs => !(isSpaceCh c && bdry ctx) && passThrough (c :: ctx) cs

/-- Well-formedness of a sentence piece: non-empty, stripped at both ends,
and containing no internal split point. -/
def pieceOKb (p : Text) : Bool :=
  !p.isEmpty && !isSpaceCh (p.headD 'a') && !isSpaceCh (p.getLastD 'a') && passThrough [] p

/-- The piece ends in a split-triggering context (terminal punctuation,
possibly followed by a quote). -/
def terminalb (p : Text) : Bool := bdry p.reverse

/-- Invariant of the packing loops: every emitted chunk carries the
unmodified question and an answer fragment within the available budget. -/
def chunksOK (tok : Tok) (q : Text) (avail : Nat) (cks : List Chunk) : Prop :=
  ∀ c ∈ cks, c.1 = q ∧ tok c.2 ≤ avail

/-- A fresh session on which a sequence of `add_message` calls is replayed
(`ConversationManager.get_conversation` creates the session empty). -/
def runAdds (m : Nat) (sid : Text) (calls : List (Text × Text × Nat)) : Conversation :=
  calls.foldl (fun c rc => c.add_message rc.1 rc.2.1 rc.2.2) (Conversation.mk sid m [])

/-- The round-trip property of C2, stated over the produced chunk sequence:
each chunk's answer splits into a prepended overlap part and a core part,
the first chunk has no overlap part, each later overlap part is a suffix of
the previous chunk's core, and the cores concatenate to the sentence
sequence of the original answer. -/
def roundTripProp (a : Text) (cs : List Chunk) : Prop :=
  ∃ ovs cores : List (List Text),
    ovs.length = cs.length ∧ cores.length = cs.length ∧
    List.Forall₂ (fun (c : Chunk) (oc : List Text × List Text) =>
      split_into_sentences c.2 = oc.1 ++ oc.2) cs (ovs.zip cores) ∧
    ovs.headD [] = [] ∧
    List.Chain' (fun p1 p2 => p2.1 <:+ p1.2) (ovs.zip cores) ∧
    cores.flatten = split_into_sentences a

/- ----------------------------------------------------------------- -/
/- Basic lemmas                                                       -/
/- ----------------------------------------------------------------- -/

theorem ratFifth_eq : ratFifth = 1 / 5 := by
  unfold ratFifth
  rw [Rat.mk'_eq_divInt, Rat.divInt_eq_div]
  norm_num

theorem ratHalf_eq : ratHalf = 1 / 2 := by
  unfold ratHalf
  rw [Rat.mk'_eq_divInt, Rat.divInt_eq_div]
  norm_num

theorem joinSp_nil : joinSp [] = [] := rfl

theorem joinSp_singleton (x : Text) : joinSp [x] = x := by
  simp [joinSp, List.intercalate, List.intersperse]

theorem joinSp_cons_cons (x y : Text) (t : List Text) :
    joinSp (x :: y :: t) = x ++ ' ' :: joinSp (y :: t) := by
  simp [joinSp, List.intercalate, List.intersperse_cons_cons]

theorem joinSp_append_single (xs : List Text) (y : Text) :
    joinSp (xs ++ [y]) = if xs.isEmpty then y else joinSp xs ++ ' ' :: y := by
  induction xs with
  | nil => simp [joinSp_singleton]
  | cons a t ih =>
    cases t with
    | nil => simp [joinSp_cons_cons, joinSp_singleton]
    | cons b t2 =>
      simp only [List.cons_append, List.isEmpty_cons] at ih ⊢
      simp only [Bool.false_eq_true, if_false] at ih ⊢
      rw [joinSp_cons_cons, joinSp_cons_cons, ih]
      simp [List.append_assoc]

theorem truncMulNat_eq_floor (n : Nat) (r : ℚ) (hr : 0 ≤ r) :
    truncMulNat n r = Int.toNat (Int.floor ((n : ℚ) * r)) := by
  unfold truncMulNat
  have hnum : (0 : Int) ≤ (n : Int) * r.num :=
    mul_nonneg (Int.natCast_nonneg n) (Rat.num_nonneg.mpr hr)
  rw [Int.tdiv_eq_ediv hnum (Int.natCast_nonneg _)]
  congr 1
  rw [← Rat.floor_intCast_div_natCast ((n : Int) * r.num) r.den]
  congr 1
  push_cast
  rw [mul_div_assoc, Rat.num_div_den]

/- ----------------------------------------------------------------- -/
/- C9: the no-op fast path                                            -/
/- ----------------------------------------------------------------- -/

/-- C9: whenever the question and answer together fit the budget,
`chunk_qna_with_overlap` returns the single unchanged pair. -/
theorem chunk_noop_fast_path (tok : Tok) (q a : Text) (B : Nat) (r : ℚ)
    (h : tok q + tok a ≤ B) :
    chunk_qna_with_overlap tok q a B r = .ok [(q, a)] := by
  simp [chunk_qna_with_overlap, h]

theorem chunk_noop_fast_path_witness :
    countNonSpace (String.toList "q") + countNonSpace (String.toList "ab") ≤ 10 ∧
    chunk_qna_with_overlap countNonSpace (String.toList "q") (String.toList "ab") 10 ratFifth
      = .ok [(String.toList "q", String.toList "ab")] :=
  ⟨by decide, chunk_noop_fast_path countNonSpace _ _ 10 ratFifth (by decide)⟩

/- ----------------------------------------------------------------- -/
/- C7: the oversized-question error condition                          -/
/- ----------------------------------------------------------------- -/

/-- C7: when the pair does not fit the budget, the call raises the
`OversizedQuestion` error exactly when the question's tokens exceed half the
budget (integer division, which agrees with the real comparison
`tokens(q) > B/2` for integer token counts); otherwise it proceeds to split
the answer into sentences and chunk it. -/
theorem chunk_oversized_question_iff (tok : Tok) (q a : Text) (B : Nat) (r : ℚ)
    (h : B < tok q + tok a) :
    (chunk_qna_with_overlap tok q a B r = .error () ↔ B / 2 < tok q) ∧
    (tok q ≤ B / 2 →
      chunk_qna_with_overlap tok q a B r
        = .ok (chunkBody tok q (split_into_sentences a) B r)) := by
  have h1 : ¬(tok q + tok a ≤ B) := by omega
  constructor
  · by_cases hq : B / 2 < tok q <;> simp [chunk_qna_with_overlap, h1, hq]
  · intro hq
    have h2 : ¬(B / 2 < tok q) := by omega
    simp [chunk_qna_with_overlap, h1, h2]

theorem chunk_oversized_question_iff_witness :
    6 < countNonSpace (String.toList "aaaaaa") + countNonSpace (String.toList "b") ∧
    ((chunk_qna_with_overlap countNonSpace (String.toList "aaaaaa") (String.toList "b") 6 ratFifth
        = .error () ↔ 6 / 2 < countNonSpace (String.toList "aaaaaa")) ∧
      (countNonSpace (String.toList "aaaaaa") ≤ 6 / 2 →
        chunk_qna_with_overlap countNonSpace (String.toList "aaaaaa") (String.toList "b") 6 ratFifth
          = .ok (chunkBody countNonSpace (String.toList "aaaaaa")
              (split_into_sentences (String.toList "b")) 6 ratFifth))) :=
  ⟨by decide,
   chunk_oversized_question_iff countNonSpace (String.toList "aaaaaa") (String.toList "b")
     6 ratFifth (by decide)⟩

/- ----------------------------------------------------------------- -/
/- C4: the two-stage domain gate                                       -/
/- ----------------------------------------------------------------- -/

/-- C4: `is_domain_question` behaves exactly as the spec describes: a
case-insensitive keyword substring hit returns true with no retrieval call;
otherwise the result is true exactly when `retrieve(query, 1)` is non-empty
with first similarity at or above the threshold, false in all remaining
cases, with one retrieval call made. -/
theorem is_domain_question_matches_spec (kws : List Text) (resp : QueryResponse)
    (query : Text) (th : ℚ) :
    FAQRetriever.is_domain_question kws resp query th = is_domain_spec kws resp query th := by
  unfold FAQRetriever.is_domain_question is_domain_spec
  by_cases hk : kws.any (fun kw => hasSub (lowerT kw) (lowerT query))
  · simp [hk]
  · simp only [hk, if_false]
    cases h : FAQRetriever.retrieve resp with
    | nil => simp
    | cons r t => by_cases hs : th ≤ r.similarity <;> simp [hs]

/- ----------------------------------------------------------------- -/
/- C8: batch processing aborts on an oversized question                -/
/- ----------------------------------------------------------------- -/

/-- C8 (divergence witness): `process_qna_dict` has no exception handling,
so the corpus run aborts at the first oversized question even though the
remaining pair chunks fine on its own. -/
theorem process_qna_dict_aborts :
    process_qna_dict countNonSpace 10 ratFifth
      [(String.toList "aaaaaaaaaa", String.toList "bbbb"),
       (String.toList "q", String.toList "bb")] = .error () ∧
    chunk_qna_with_overlap countNonSpace (String.toList "aaaaaaaaaa")
      (String.toList "bbbb") 10 ratFifth = .error () ∧
    chunk_qna_with_overlap countNonSpace (String.toList "q") (String.toList "bb") 10 ratFifth
      = .ok [(String.toList "q", String.toList "bb")] :=
  ⟨rfl, rfl, rfl⟩

/- ----------------------------------------------------------------- -/
/- C6: retrieval result formatting                                     -/
/- ----------------------------------------------------------------- -/

/-- C6: given an aligned index response of length `m ≤ k`, `retrieve`
returns exactly `m` results in the index's order, each carrying the
document as question, the metadata fields unchanged, and
`similarity = 1 - distance`. -/
theorem retrieve_format (resp : QueryResponse) (k m : Nat)
    (hd : resp.documents.length = m) (hm : resp.metadatas.length = m)
    (hs : resp.distances.length = m) (hk : m ≤ k) :
    (FAQRetriever.retrieve resp).length = m ∧
    ∀ i, i < m →
      (FAQRetriever.retrieve resp).getD i ⟨[], [], [], 0⟩ =
        ⟨resp.documents.getD i [], (resp.metadatas.getD i ⟨[], []⟩).answer,
         (resp.metadatas.getD i ⟨[], []⟩).original_question,
         1 - resp.distances.getD i 0⟩ := by
  constructor
  · simp [FAQRetriever.retrieve, hd]
  · intro i hi
    have hi2 : i < resp.documents.length := by omega
    simp [FAQRetriever.retrieve, List.getD_eq_getElem?_getD, List.getElem?_map,
      List.getElem?_range, hi2]

theorem retrieve_format_witness :
    (QueryResponse.mk [String.toList "d0", String.toList "d1"]
        [⟨String.toList "a0", String.toList "o0"⟩, ⟨String.toList "a1", String.toList "o1"⟩]
        [0, ratHalf]).documents.length = 2 ∧
    (FAQRetriever.retrieve
        (QueryResponse.mk [String.toList "d0", String.toList "d1"]
          [⟨String.toList "a0", String.toList "o0"⟩, ⟨String.toList "a1", String.toList "o1"⟩]
          [0, ratHalf])).length = 2 ∧
    ∀ i, i < 2 →
      (FAQRetriever.retrieve
          (QueryResponse.mk [String.toList "d0", String.toList "d1"]
            [⟨String.toList "a0", String.toList "o0"⟩, ⟨String.toList "a1", String.toList "o1"⟩]
            [0, ratHalf])).getD i ⟨[], [], [], 0⟩ =
        ⟨(QueryResponse.mk [String.toList "d0", String.toList "d1"]
            [⟨String.toList "a0", String.toList "o0"⟩, ⟨String.toList "a1", String.toList "o1"⟩]
            [0, ratHalf]).documents.getD i [],
         ((QueryResponse.mk [String.toList "d0", String.toList "d1"]
            [⟨String.toList "a0", String.toList "o0"⟩, ⟨String.toList "a1", String.toList "o1"⟩]
            [0, ratHalf]).metadatas.getD i ⟨[], []⟩).answer,
         ((QueryResponse.mk [String.toList "d0", String.toList "d1"]
            [⟨String.toList "a0", String.toList "o0"⟩, ⟨String.toList "a1", String.toList "o1"⟩]
            [0, ratHalf]).metadatas.getD i ⟨[], []⟩).original_question,
         1 - (QueryResponse.mk [String.toList "d0", String.toList "d1"]
            [⟨String.toList "a0", String.toList "o0"⟩, ⟨String.toList "a1", String.toList "o1"⟩]
            [0, ratHalf]).distances.getD i 0⟩ :=
  ⟨rfl,
   retrieve_format
     (QueryResponse.mk [String.toList "d0", String.toList "d1"]
       [⟨String.toList "a0", String.toList "o0"⟩, ⟨String.toList "a1", String.toList "o1"⟩]
       [0, ratHalf]) 3 2 rfl rfl rfl (by omega)⟩

/- ----------------------------------------------------------------- -/
/- C10: save/load round trip of a conversation                         -/
/- ----------------------------------------------------------------- -/

/-- C10: the dict round trip preserves the session id and the full message
sequence, but the rebuilt conversation always carries the process-wide
default `MAX_CONVERSATION_HISTORY`; every conversation loaded from a file
has the default as well, so a per-session override is not preserved. -/
theorem conversation_roundtrip_default_history (c : Conversation) :
    (Conversation.from_dict (Conversation.to_dict c)).session_id = c.session_id ∧
    (Conversation.from_dict (Conversation.to_dict c)).messages = c.messages ∧
    (Conversation.from_dict (Conversation.to_dict c)).max_history = MAX_CONVERSATION_HISTORY ∧
    ∀ (data : List (Text × ConversationDict)) (p : Text × Conversation),
      p ∈ ConversationManager.load_from_file data →
        p.2.max_history = MAX_CONVERSATION_HISTORY := by
  refine ⟨rfl, ?_, rfl, ?_⟩
  · show (c.messages.map Message.to_dict).map Message.from_dict = c.messages
    induction c.messages with
    | nil => rfl
    | cons m t ih =>
      simp only [List.map_cons, ih]
      cases m
      rfl
  · intro data p hp
    simp only [ConversationManager.load_from_file, List.mem_map] at hp
    obtain ⟨sd, _, rfl⟩ := hp
    rfl

theorem conversation_roundtrip_default_history_witness :
    (Conversation.from_dict (Conversation.to_dict
        ⟨String.toList "s", 9, [⟨String.toList "user", String.toList "hi", 3⟩]⟩)).max_history
      = MAX_CONVERSATION_HISTORY ∧
    (Conversation.from_dict (Conversation.to_dict
        ⟨String.toList "s", 9, [⟨String.toList "user", String.toList "hi", 3⟩]⟩)).messages
      = [⟨String.toList "user", String.toList "hi", 3⟩] ∧
    (String.toList "s",
      Conversation.from_dict (ConversationDict.mk (String.toList "s") [])).2.max_history
      = MAX_CONVERSATION_HISTORY :=
  ⟨(conversation_roundtrip_default_history
      ⟨String.toList "s", 9, [⟨String.toList "user", String.toList "hi", 3⟩]⟩).2.2.1,
   (conversation_roundtrip_default_history
      ⟨String.toList "s", 9, [⟨String.toList "user", String.toList "hi", 3⟩]⟩).2.1,
   (conversation_roundtrip_default_history
      ⟨String.toList "s", 9, [⟨String.toList "user", String.toList "hi", 3⟩]⟩).2.2.2
     [(String.toList "s", ConversationDict.mk (String.toList "s") [])]
     (String.toList "s", Conversation.from_dict (ConversationDict.mk (String.toList "s") []))
     (by simp [ConversationManager.load_from_file])⟩


/- ----------------------------------------------------------------- -/
/- C5: the conversation history bound                                  -/
/- ----------------------------------------------------------------- -/

/-- C5 counterexample: for a session created with `max_history = 0` the
claimed invariant `len(messages) ≤ 2 × max_history` fails after two
appends, because the Python trim `messages[-max_history * 2:]` is
`messages[0:]` — the whole list — when `max_history * 2 == 0`. -/
theorem conversation_history_counterexample :
    2 * (Conversation.mk (String.toList "s") 0 []).max_history
      < (((Conversation.mk (String.toList "s") 0 []).add_message
            (String.toList "user") (String.toList "a") 0).add_message
            (String.toList "assistant") (String.toList "b") 1).messages.length := by
  decide

theorem add_message_messages (c : Conversation) (role content : Text) (now : Nat)
    (hm : 0 < c.max_history) :
    (c.add_message role content now).messages
      = (c.messages ++ [Message.mk role content now]).drop
          ((c.messages.length + 1) - 2 * c.max_history) ∧
    (c.add_message role content now).max_history = c.max_history := by
  by_cases hlen : c.max_history * 2 < c.messages.length + 1
  case pos =>
    have h0 : ¬(c.max_history * 2 = 0) := by omega
    simp only [Conversation.add_message, lastSlice, List.length_append, List.length_cons,
      List.length_nil, Nat.add_zero]
    rw [if_pos (by omega), if_neg h0]
    refine ⟨?_, rfl⟩
    simp only [List.length_append, List.length_cons, List.length_nil]
    congr 1
    omega
  case neg =>
    simp only [Conversation.add_message, lastSlice, List.length_append, List.length_cons,
      List.length_nil, Nat.add_zero]
    rw [if_neg (by omega)]
    refine ⟨?_, rfl⟩
    rw [Nat.sub_eq_zero_of_le (by omega), List.drop_zero]

theorem foldl_add_messages :
    ∀ (calls : List (Text × Text × Nat)) (c : Conversation),
      0 < c.max_history → c.messages.length ≤ 2 * c.max_history →
      (calls.foldl (fun c2 rc => c2.add_message rc.1 rc.2.1 rc.2.2) c).messages
        = (c.messages ++ calls.map (fun rc => Message.mk rc.1 rc.2.1 rc.2.2)).drop
            ((c.messages.length + calls.length) - 2 * c.max_history) ∧
      (calls.foldl (fun c2 rc => c2.add_message rc.1 rc.2.1 rc.2.2) c).max_history
        = c.max_history := by
  intro calls
  induction calls with
  | nil =>
    intro c h1 h2
    simp only [List.foldl_nil, List.map_nil, List.append_nil, List.length_nil, Nat.add_zero]
    rw [Nat.sub_eq_zero_of_le h2, List.drop_zero]
    exact ⟨rfl, trivial⟩
  | cons rc rest ih =>
    intro c h1 h2
    simp only [List.foldl_cons]
    obtain ⟨hmsg, hmax⟩ := add_message_messages c rc.1 rc.2.1 rc.2.2 h1
    have hlen2 : (c.add_message rc.1 rc.2.1 rc.2.2).messages.length
        ≤ 2 * (c.add_message rc.1 rc.2.1 rc.2.2).max_history := by
      rw [hmsg, hmax, List.length_drop, List.length_append]
      simp only [List.length_cons, List.length_nil]
      omega
    obtain ⟨ih1, ih2⟩ := ih (c.add_message rc.1 rc.2.1 rc.2.2)
      (by rw [hmax]; exact h1) hlen2
    refine ⟨?_, by rw [ih2, hmax]⟩
    rw [ih1, hmax, hmsg]
    have hle : (c.messages.length + 1) - 2 * c.max_history
        ≤ (c.messages ++ [Message.mk rc.1 rc.2.1 rc.2.2]).length := by
      rw [List.length_append]; simp only [List.length_cons, List.length_nil]; omega
    rw [← List.drop_append_of_le_length hle, List.drop_drop]
    have harr : c.messages ++ Message.mk rc.1 rc.2.1 rc.2.2
          :: rest.map (fun rc => Message.mk rc.1 rc.2.1 rc.2.2)
        = (c.messages ++ [Message.mk rc.1 rc.2.1 rc.2.2])
          ++ rest.map (fun rc => Message.mk rc.1 rc.2.1 rc.2.2) := by
      simp [List.append_assoc]
    simp only [List.map_cons, harr]
    congr 1
    rw [List.length_drop, List.length_append]
    simp only [List.length_cons, List.length_nil, List.length_map]
    omega

/-- C5 (amended): for every session with a positive `max_history` and every
finite sequence of `add_message` calls replayed on it from creation, the
retained messages are exactly the most recent ones of the appended sequence
in their original order, and never more than `2 × max_history` of them.
(For `max_history = 0` the Python trim slice `[-0:]` keeps everything; see
the counterexample.) -/
theorem conversation_history_bound (m : Nat) (sid : Text)
    (calls : List (Text × Text × Nat)) (hm : 0 < m) :
    (runAdds m sid calls).messages.length ≤ 2 * m ∧
    (runAdds m sid calls).messages
      = (calls.map (fun rc => Message.mk rc.1 rc.2.1 rc.2.2)).drop
          (calls.length - 2 * m) := by
  obtain ⟨h1, _⟩ := foldl_add_messages calls ⟨sid, m, []⟩ hm (by simp)
  unfold runAdds
  simp only [List.nil_append, List.length_nil, Nat.zero_add] at h1
  refine ⟨?_, h1⟩
  rw [h1, List.length_drop, List.length_map]
  omega
theorem conversation_history_bound_witness :
    0 < 1 ∧
    ((runAdds 1 (String.toList "s")
        [(String.toList "user", String.toList "a", 0),
         (String.toList "assistant", String.toList "b", 1),
         (String.toList "user", String.toList "c", 2)]).messages.length ≤ 2 * 1 ∧
      (runAdds 1 (String.toList "s")
        [(String.toList "user", String.toList "a", 0),
         (String.toList "assistant", String.toList "b", 1),
         (String.toList "user", String.toList "c", 2)]).messages
        = ([(String.toList "user", String.toList "a", 0),
            (String.toList "assistant", String.toList "b", 1),
            (String.toList "user", String.toList "c", 2)].map
              (fun rc => Message.mk rc.1 rc.2.1 rc.2.2)).drop
            ([(String.toList "user", String.toList "a", 0),
              (String.toList "assistant", String.toList "b", 1),
              (String.toList "user", String.toList "c", 2)].length - 2 * 1)) :=
  ⟨by decide,
   conversation_history_bound 1 (String.toList "s")
     [(String.toList "user", String.toList "a", 0),
      (String.toList "assistant", String.toList "b", 1),
      (String.toList "user", String.toList "c", 2)] (by decide)⟩

/- ----------------------------------------------------------------- -/
/- C1 counterexample: a chunk can exceed the token budget              -/
/- ----------------------------------------------------------------- -/

/-- C1 counterexample: a single word whose token count exceeds the
available budget defeats the word-granularity fallback; the run returns a
chunk sequence in which the last chunk's question plus fragment exceed the
budget of 10 (the tokenizer here counts non-whitespace characters). -/
theorem chunk_budget_counterexample :
    chunk_qna_with_overlap countNonSpace (String.toList "q")
        (String.toList "aaaaaaaaaaaa") 10 ratFifth
      = .ok [(String.toList "q", String.toList ""),
             (String.toList "q", String.toList " aaaaaaaaaaaa")] ∧
    10 < countNonSpace (String.toList "q")
          + countNonSpace (String.toList " aaaaaaaaaaaa") :=
  ⟨rfl, by decide⟩

/- ----------------------------------------------------------------- -/
/- C3: overlap sentence selection                                      -/
/- ----------------------------------------------------------------- -/

/-- C3 counterexample: a run with `r = 1/2` whose first raw chunk holds 3
sentences.  The code prepends `max(1, int(3 * 1/2)) = 1` sentence before
the drop step, not `ceil(3 * 1/2) = 2` as the claim states. -/
theorem overlap_count_counterexample :
    chunk_qna_with_overlap countNonSpace (String.toList "q.")
        (String.toList "a. b. c. d. e.") 8 ratHalf
      = .ok [(String.toList "q.", String.toList "a. b. c."),
             (String.toList "q.", String.toList "c. d. e.")] ∧
    rawChunks countNonSpace (String.toList "q.") (8 - countNonSpace (String.toList "q."))
        (split_into_sentences (String.toList "a. b. c. d. e."))
      = [(String.toList "q.", String.toList "a. b. c."),
         (String.toList "q.", String.toList "d. e.")] ∧
    (split_into_sentences (String.toList "a. b. c.")).length = 3 ∧
    (overlapSel ratHalf (String.toList "a. b. c.")).length = 1 ∧
    Int.ceil (((split_into_sentences (String.toList "a. b. c.")).length : ℚ) * ratHalf)
      = 2 := by
  refine ⟨rfl, rfl, rfl, rfl, ?_⟩
  rw [show (split_into_sentences (String.toList "a. b. c.")).length = 3 from rfl]
  rw [ratHalf_eq, Int.ceil_eq_iff]
  constructor <;> norm_num

theorem truncMulNat_le (n : Nat) (r : ℚ) (hr1 : r < 1) : truncMulNat n r ≤ n := by
  unfold truncMulNat
  have hden : (0 : Int) < (r.den : Int) := by exact_mod_cast r.pos
  rcases le_or_lt ((n : Int) * r.num) 0 with hneg | hpos
  · have h1 : (0 : Int) ≤ Int.tdiv (-((n : Int) * r.num)) (r.den : Int) :=
      Int.tdiv_nonneg (by omega) (by omega)
    have h2 : Int.tdiv ((n : Int) * r.num) (r.den : Int) ≤ 0 := by
      rw [← Int.neg_neg ((n : Int) * r.num), Int.neg_tdiv]
      omega
    omega
  · have hnum : (0 : Int) ≤ (n : Int) * r.num := le_of_lt hpos
    rw [Int.tdiv_eq_ediv hnum (by omega)]
    have hlt : (n : Int) * r.num ≤ (n : Int) * (r.den : Int) := by
      have hr2 : r.num ≤ (r.den : Int) := by
        have := Rat.lt_one_iff_num_lt_denom.mp hr1
        omega
      exact mul_le_mul_of_nonneg_left hr2 (Int.natCast_nonneg n)
    have hd : ((n : Int) * r.num) / (r.den : Int) ≤ (n : Int) := by
      calc ((n : Int) * r.num) / (r.den : Int)
          ≤ ((n : Int) * (r.den : Int)) / (r.den : Int) :=
            Int.ediv_le_ediv hden hlt
        _ = (n : Int) := Int.mul_ediv_cancel _ (by omega)
    omega

/-- C3 (amended): for a non-negative ratio, the overlap prepended to chunk
`i > 0` before the drop step has exactly
`min(sentence_count(prev), max(1, floor(r × sentence_count(prev))))`
sentences — `int()` truncates, so `floor`, not `ceil`, and the count is
additionally capped by the sentences available; it is at least 1 and at
most `sentence_count(prev)` whenever the previous chunk has a sentence, and
`applyOverlap` keeps chunk 0 unchanged (no prepended overlap). -/
theorem overlap_count_amended (r : ℚ) (prev : Text) (hr : 0 ≤ r) :
    (overlapSel r prev).length
      = min (split_into_sentences prev).length
          (max 1 (Int.toNat (Int.floor (((split_into_sentences prev).length : ℚ) * r)))) ∧
    (1 ≤ (split_into_sentences prev).length →
        1 ≤ (overlapSel r prev).length ∧
        (overlapSel r prev).length ≤ (split_into_sentences prev).length) ∧
    ∀ (tok : Tok) (q : Text) (qt maxt : Nat) (c0 : Chunk) (rest : List Chunk),
      (applyOverlap tok q qt maxt r (c0 :: rest)).headD c0 = c0 ∧
      (applyOverlap tok q qt maxt r (c0 :: rest)).length = (c0 :: rest).length := by
  have hsel : (overlapSel r prev).length
      = min (split_into_sentences prev).length
          (max 1 (truncMulNat (split_into_sentences prev).length r)) := by
    unfold overlapSel
    by_cases hc : max 1 (truncMulNat (split_into_sentences prev).length r)
        < (split_into_sentences prev).length
    · simp only [hc, if_true, List.length_drop]
      omega
    · simp only [hc, if_false]
      omega
  refine ⟨?_, ?_, ?_⟩
  · rw [hsel, truncMulNat_eq_floor _ _ hr]
  · intro h1
    rw [hsel]
    omega
  · intro tok q qt maxt c0 rest
    refine ⟨rfl, ?_⟩
    simp only [applyOverlap, List.length_cons, List.length_map, List.length_zip]
    omega

theorem overlap_count_amended_witness :
    (0 : ℚ) ≤ ratHalf ∧
    ((overlapSel ratHalf (String.toList "a. b. c.")).length
        = min (split_into_sentences (String.toList "a. b. c.")).length
            (max 1 (Int.toNat (Int.floor
              (((split_into_sentences (String.toList "a. b. c.")).length : ℚ) * ratHalf)))) ∧
      (1 ≤ (split_into_sentences (String.toList "a. b. c.")).length →
          1 ≤ (overlapSel ratHalf (String.toList "a. b. c.")).length ∧
          (overlapSel ratHalf (String.toList "a. b. c.")).length
            ≤ (split_into_sentences (String.toList "a. b. c.")).length) ∧
      ∀ (tok : Tok) (q : Text) (qt maxt : Nat) (c0 : Chunk) (rest : List Chunk),
        (applyOverlap tok q qt maxt ratHalf (c0 :: rest)).headD c0 = c0 ∧
        (applyOverlap tok q qt maxt ratHalf (c0 :: rest)).length = (c0 :: rest).length) :=
  ⟨by decide, overlap_count_amended ratHalf (String.toList "a. b. c.") (by decide)⟩

/- ----------------------------------------------------------------- -/
/- C1 (amended): every chunk fits the budget when words fit            -/
/- ----------------------------------------------------------------- -/

theorem packWords_spec (tok : Tok) (q : Text) (avail : Nat)
    (Hjoin : ∀ x y : Text, tok (x ++ ' ' :: y) ≤ tok x + tok y)
    (Hsp : ∀ x : Text, tok x ≤ tok (x ++ [' '])) :
    ∀ (ws : List Text) (cks : List Chunk) (temp : List Text) (tt : Nat),
      (∀ w ∈ ws, tok (w ++ [' ']) ≤ avail) →
      chunksOK tok q avail cks →
      tok (joinSp temp) ≤ tt → tt ≤ avail →
      chunksOK tok q avail (packWords tok q avail cks temp tt ws).1 ∧
      tok (joinSp (packWords tok q avail cks temp tt ws).2.1)
        ≤ (packWords tok q avail cks temp tt ws).2.2 ∧
      (packWords tok q avail cks temp tt ws).2.2 ≤ avail := by
  intro ws
  induction ws with
  | nil =>
    intro cks temp tt _ hc h3 h4
    rw [packWords]
    exact ⟨hc, h3, h4⟩
  | cons w ws ih =>
    intro cks temp tt hw hc h3 h4
    rw [packWords]
    by_cases hfit : tt + tok (w ++ [' ']) ≤ avail
    · rw [if_pos hfit]
      apply ih
      · intro w2 hw2
        exact hw w2 (List.mem_cons_of_mem _ hw2)
      · exact hc
      · rw [joinSp_append_single]
        by_cases he : temp.isEmpty
        · rw [if_pos he]
          have h5 := Hsp w
          omega
        · rw [if_neg he]
          have h5 := Hjoin (joinSp temp) w
          have h6 := Hsp w
          omega
      · exact hfit
    · rw [if_neg hfit]
      apply ih
      · intro w2 hw2
        exact hw w2 (List.mem_cons_of_mem _ hw2)
      · intro c hcm
        rcases List.mem_append.mp hcm with h | h
        · exact hc c h
        · have : c = (q, joinSp temp) := by simpa using h
          subst this
          exact ⟨rfl, le_trans h3 h4⟩
      · rw [joinSp_singleton]
        exact Hsp w
      · exact hw w (List.mem_cons_self _ _)

theorem wordFallback_spec (tok : Tok) (q : Text) (avail : Nat)
    (Hjoin : ∀ x y : Text, tok (x ++ ' ' :: y) ≤ tok x + tok y)
    (Hsp : ∀ x : Text, tok x ≤ tok (x ++ [' ']))
    (Hnil : tok [] = 0) (s : Text)
    (hw : ∀ w ∈ splitWords s, tok (w ++ [' ']) ≤ avail)
    (cks : List Chunk) (hc : chunksOK tok q avail cks) :
    chunksOK tok q avail (wordFallback tok q avail cks s).1 ∧
    tok (joinSp (wordFallback tok q avail cks s).2.1)
      ≤ (wordFallback tok q avail cks s).2.2 ∧
    (wordFallback tok q avail cks s).2.2 ≤ avail := by
  obtain ⟨h1, h2, h3⟩ := packWords_spec tok q avail Hjoin Hsp (splitWords s) cks [] 0 hw hc
    (by rw [joinSp_nil, Hnil]) (Nat.zero_le _)
  unfold wordFallback
  by_cases he : (packWords tok q avail cks [] 0 (splitWords s)).2.1.isEmpty
  · simp only [he, if_true]
    refine ⟨h1, ?_, Nat.zero_le _⟩
    rw [joinSp_nil, Hnil]
  · simp only [he, if_false]
    exact ⟨h1, h2, h3⟩

theorem packSents_spec (tok : Tok) (q : Text) (avail : Nat)
    (Hjoin : ∀ x y : Text, tok (x ++ ' ' :: y) ≤ tok x + tok y)
    (Hsp : ∀ x : Text, tok x ≤ tok (x ++ [' ']))
    (Hnil : tok [] = 0) :
    ∀ (ss : List Text) (cks : List Chunk) (cur : List Text) (ct : Nat),
      (∀ s ∈ ss, ∀ w ∈ splitWords s, tok (w ++ [' ']) ≤ avail) →
      chunksOK tok q avail cks →
      tok (joinSp cur) ≤ ct → ct ≤ avail →
      chunksOK tok q avail (packSents tok q avail cks cur ct ss).1 ∧
      tok (joinSp (packSents tok q avail cks cur ct ss).2.1)
        ≤ (packSents tok q avail cks cur ct ss).2.2 ∧
      (packSents tok q avail cks cur ct ss).2.2 ≤ avail := by
  intro ss
  induction ss with
  | nil =>
    intro cks cur ct _ hc h3 h4
    rw [packSents]
    exact ⟨hc, h3, h4⟩
  | cons s ss ih =>
    intro cks cur ct hw hc h3 h4
    rw [packSents]
    by_cases hfit : ct + tok s ≤ avail
    · rw [if_pos hfit]
      apply ih
      · intro s2 hs2
        exact hw s2 (List.mem_cons_of_mem _ hs2)
      · exact hc
      · rw [joinSp_append_single]
        by_cases he : cur.isEmpty
        · rw [if_pos he]
          omega
        · rw [if_neg he]
          have h5 := Hjoin (joinSp cur) s
          omega
      · exact hfit
    · rw [if_neg hfit]
      have hc1 : chunksOK tok q avail
          (if cur.isEmpty then cks else cks ++ [(q, joinSp cur)]) := by
        by_cases he : cur.isEmpty
        · rw [if_pos he]; exact hc
        · rw [if_neg he]
          intro c hcm
          rcases List.mem_append.mp hcm with h | h
          · exact hc c h
          · have : c = (q, joinSp cur) := by simpa using h
            subst this
            exact ⟨rfl, le_trans h3 h4⟩
      by_cases hbig : avail < tok s
      · rw [if_pos hbig]
        obtain ⟨g1, g2, g3⟩ := wordFallback_spec tok q avail Hjoin Hsp Hnil s
          (hw s (List.mem_cons_self _ _)) _ hc1
        exact ih _ _ _ (fun s2 hs2 => hw s2 (List.mem_cons_of_mem _ hs2)) g1 g2 g3
      · rw [if_neg hbig]
        apply ih
        · intro s2 hs2
          exact hw s2 (List.mem_cons_of_mem _ hs2)
        · exact hc1
        · rw [joinSp_singleton]
        · omega

theorem rawChunks_budget (tok : Tok) (q : Text) (avail : Nat)
    (Hjoin : ∀ x y : Text, tok (x ++ ' ' :: y) ≤ tok x + tok y)
    (Hsp : ∀ x : Text, tok x ≤ tok (x ++ [' ']))
    (Hnil : tok [] = 0) (sents : List Text)
    (hw : ∀ s ∈ sents, ∀ w ∈ splitWords s, tok (w ++ [' ']) ≤ avail) :
    chunksOK tok q avail (rawChunks tok q avail sents) := by
  obtain ⟨h1, h2, h3⟩ := packSents_spec tok q avail Hjoin Hsp Hnil sents [] [] 0 hw
    (by intro c hcm; simp at hcm) (by rw [joinSp_nil, Hnil]) (Nat.zero_le _)
  unfold rawChunks
  by_cases he : (packSents tok q avail [] [] 0 sents).2.1.isEmpty
  · simp only [he, if_true]
    exact h1
  · simp only [he, if_false]
    intro c hcm
    rcases List.mem_append.mp hcm with h | h
    · exact h1 c h
    · have : c = (q, joinSp (packSents tok q avail [] [] 0 sents).2.1) := by simpa using h
      subst this
      exact ⟨rfl, le_trans h2 h3⟩

theorem overlapStep_le (tok : Tok) (qt maxt : Nat) (r : ℚ) (prev curr : Text)
    (Hjoin : ∀ x y : Text, tok (x ++ ' ' :: y) ≤ tok x + tok y)
    (Hnil : tok [] = 0) (hcurr : tok curr + qt ≤ maxt) :
    tok (overlapStep tok qt maxt r prev curr) + qt ≤ maxt := by
  unfold overlapStep
  generalize overlapSel r prev = os
  induction os with
  | nil =>
    rw [trimmedOverlap, joinSp_nil]
    have h5 := Hjoin [] curr
    rw [Hnil] at h5
    rw [List.nil_append] at h5 ⊢
    omega
  | cons h t ih =>
    rw [trimmedOverlap]
    by_cases hc : maxt < tok (joinSp (h :: t) ++ ' ' :: curr) + qt
    · rw [if_pos hc]
      exact ih
    · rw [if_neg hc]
      omega

theorem applyOverlap_budget (tok : Tok) (q : Text) (qt maxt : Nat) (r : ℚ)
    (cks : List Chunk)
    (Hjoin : ∀ x y : Text, tok (x ++ ' ' :: y) ≤ tok x + tok y)
    (Hnil : tok [] = 0)
    (hq : tok q = qt) (hqB : qt ≤ maxt)
    (hcks : chunksOK tok q (maxt - qt) cks) :
    ∀ c ∈ applyOverlap tok q qt maxt r cks, tok c.1 + tok c.2 ≤ maxt := by
  cases cks with
  | nil => intro c hcm; simp [applyOverlap] at hcm
  | cons c0 rest =>
    intro c hcm
    simp only [applyOverlap, List.mem_cons] at hcm
    rcases hcm with h | h
    · rw [h]
      obtain ⟨he1, he2⟩ := hcks c0 (List.mem_cons_self _ _)
      rw [he1, hq]
      omega
    · rw [List.mem_map] at h
      obtain ⟨pc, hpc, rfl⟩ := h
      have hmem : pc.2 ∈ (c0 :: rest) := List.mem_cons_of_mem _ (List.of_mem_zip hpc).2
      obtain ⟨_, he2⟩ := hcks pc.2 hmem
      have hcurr : tok pc.2.2 + qt ≤ maxt := by omega
      have hov := overlapStep_le tok qt maxt r pc.1.2 pc.2.2 Hjoin Hnil hcurr
      show tok q + tok (overlapStep tok qt maxt r pc.1.2 pc.2.2) ≤ maxt
      omega

/-- C1 (amended): provided the tokenizer satisfies the natural counting
contract (joining with a space costs at most the parts, a trailing space
never decreases the count, the empty text costs 0) and every word of every
sentence of the answer fits the available budget `B - tokens(q)` with its
trailing space, every chunk of a successful run satisfies
`tokens(question) + tokens(answer_fragment) ≤ B`.  Without the word-fits
condition a single oversized word defeats the fallback (see the
counterexample). -/
theorem chunk_budget_amended (tok : Tok) (q a : Text) (B : Nat) (r : ℚ)
    (cs : List Chunk)
    (Hjoin : ∀ x y : Text, tok (x ++ ' ' :: y) ≤ tok x + tok y)
    (Hsp : ∀ x : Text, tok x ≤ tok (x ++ [' ']))
    (Hnil : tok [] = 0)
    (Hw : ∀ s ∈ split_into_sentences a, ∀ w ∈ splitWords s,
      tok (w ++ [' ']) ≤ B - tok q)
    (hok : chunk_qna_with_overlap tok q a B r = .ok cs) :
    ∀ c ∈ cs, tok c.1 + tok c.2 ≤ B := by
  unfold chunk_qna_with_overlap at hok
  by_cases h1 : tok q + tok a ≤ B
  · rw [if_pos h1] at hok
    cases hok
    intro c hcm
    have : c = (q, a) := by simpa using hcm
    subst this
    exact h1
  · rw [if_neg h1] at hok
    by_cases h2 : B / 2 < tok q
    · rw [if_pos h2] at hok
      cases hok
    · rw [if_neg h2] at hok
      cases hok
      have hqB : tok q ≤ B := by omega
      have hraw := rawChunks_budget tok q (B - tok q) Hjoin Hsp Hnil
        (split_into_sentences a) Hw
      unfold chunkBody
      by_cases h3 : 1 < (rawChunks tok q (B - tok q) (split_into_sentences a)).length ∧ 0 < r
      · rw [if_pos h3]
        exact applyOverlap_budget tok q (tok q) B r _ Hjoin Hnil rfl hqB hraw
      · rw [if_neg h3]
        intro c hcm
        obtain ⟨he1, he2⟩ := hraw c hcm
        rw [he1]
        omega

theorem countNonSpace_join (x y : Text) :
    countNonSpace (x ++ ' ' :: y) ≤ countNonSpace x + countNonSpace y := by
  have h : countNonSpace (x ++ ' ' :: y) = countNonSpace x + countNonSpace y := by
    unfold countNonSpace
    rw [List.filter_append, List.length_append, List.filter_cons]
    norm_num [isSpaceCh]
  omega

theorem countNonSpace_space (x : Text) :
    countNonSpace x ≤ countNonSpace (x ++ [' ']) := by
  have h : countNonSpace (x ++ [' ']) = countNonSpace x := by
    unfold countNonSpace
    rw [List.filter_append, List.length_append, List.filter_cons]
    norm_num [isSpaceCh]
  omega

theorem chunk_budget_amended_witness :
    countNonSpace (String.toList "q.") + countNonSpace (String.toList "ab.") ≤ 6 ∧
    countNonSpace (String.toList "q.") + countNonSpace (String.toList " cd.") ≤ 6 ∧
    countNonSpace (String.toList "q.") + countNonSpace (String.toList " ef.") ≤ 6 :=
  ⟨chunk_budget_amended countNonSpace (String.toList "q.") (String.toList "ab. cd. ef.")
      6 ratHalf
      [(String.toList "q.", String.toList "ab."),
       (String.toList "q.", String.toList " cd."),
       (String.toList "q.", String.toList " ef.")]
      countNonSpace_join countNonSpace_space rfl (by decide) rfl
      (String.toList "q.", String.toList "ab.") (by decide),
   chunk_budget_amended countNonSpace (String.toList "q.") (String.toList "ab. cd. ef.")
      6 ratHalf
      [(String.toList "q.", String.toList "ab."),
       (String.toList "q.", String.toList " cd."),
       (String.toList "q.", String.toList " ef.")]
      countNonSpace_join countNonSpace_space rfl (by decide) rfl
      (String.toList "q.", String.toList " cd.") (by decide),
   chunk_budget_amended countNonSpace (String.toList "q.") (String.toList "ab. cd. ef.")
      6 ratHalf
      [(String.toList "q.", String.toList "ab."),
       (String.toList "q.", String.toList " cd."),
       (String.toList "q.", String.toList " ef.")]
      countNonSpace_join countNonSpace_space rfl (by decide) rfl
      (String.toList "q.", String.toList " ef.") (by decide)⟩

/- ----------------------------------------------------------------- -/
/- C2: character-level lemmas about the sentence-split boundary       -/
/- ----------------------------------------------------------------- -/

theorem space_not_punct (c : Char) (h : isSpaceCh c = true) : isPunctCh c = false := by
  simp only [isSpaceCh, Bool.or_eq_true, decide_eq_true_eq] at h
  rcases h with ((((rfl | rfl) | rfl) | rfl) | rfl) | rfl <;> rfl

theorem space_not_quote (c : Char) (h : isSpaceCh c = true) : isQuoteCh c = false := by
  simp only [isSpaceCh, Bool.or_eq_true, decide_eq_true_eq] at h
  rcases h with ((((rfl | rfl) | rfl) | rfl) | rfl) | rfl <;> rfl

theorem punct_not_space (c : Char) (h : isPunctCh c = true) : isSpaceCh c = false := by
  simp only [isPunctCh, Bool.or_eq_true, decide_eq_true_eq] at h
  rcases h with (rfl | rfl) | rfl <;> rfl

theorem quote_not_space (c : Char) (h : isQuoteCh c = true) : isSpaceCh c = false := by
  simp only [isQuoteCh, Bool.or_eq_true, decide_eq_true_eq] at h
  rcases h with rfl | rfl <;> rfl

theorem bdry_head_not_space (c : Char) (l : List Char) (h : bdry (c :: l) = true) :
    isSpaceCh c = false := by
  cases l with
  | nil =>
    simp only [bdry] at h
    exact punct_not_space c h
  | cons d t =>
    simp only [bdry, Bool.or_eq_true, Bool.and_eq_true] at h
    rcases h with h | ⟨h, _⟩
    · exact punct_not_space c h
    · exact quote_not_space c h

theorem bdry_space_head (l : List Char) (h : isSpaceCh (l.headD ' ') = true) :
    bdry l = false := by
  cases l with
  | nil => rfl
  | cons c t =>
    simp only [List.headD_cons] at h
    cases t with
    | nil => simp only [bdry]; exact space_not_punct c h
    | cons d t2 =>
      simp only [bdry, Bool.or_eq_false_iff, Bool.and_eq_false_iff]
      exact ⟨space_not_punct c h, Or.inl (space_not_quote c h)⟩

theorem bdry_top2 (x y : Char) (l l2 : List Char) :
    bdry (x :: y :: l) = bdry (x :: y :: l2) := rfl

theorem bdry_cons_nonpunct (x : Char) (l : List Char)
    (h : isPunctCh (l.headD ' ') = false) : bdry (x :: l) = bdry [x] := by
  cases l with
  | nil => rfl
  | cons d t =>
    simp only [List.headD_cons] at h
    simp only [bdry, h, Bool.and_false, Bool.or_false]

theorem bdry_append_space_tail (u v : List Char) (hu : u ≠ [])
    (hv : isSpaceCh (v.headD ' ') = true) : bdry (u ++ v) = bdry u := by
  cases u with
  | nil => exact absurd rfl hu
  | cons x t =>
    cases t with
    | nil =>
      show bdry (x :: v) = bdry [x]
      exact bdry_cons_nonpunct x v (by
        cases v with
        | nil => rfl
        | cons c t2 =>
          simp only [List.headD_cons] at hv ⊢
          exact space_not_punct c hv)
    | cons y t2 => exact bdry_top2 x y (t2 ++ v) t2

theorem passThrough_append (xs ys ctx : List Char) :
    passThrough ctx (xs ++ ys)
      = (passThrough ctx xs && passThrough (xs.reverse ++ ctx) ys) := by
  induction xs generalizing ctx with
  | nil => simp [passThrough]
  | cons c t ih =>
    simp only [List.cons_append, passThrough, List.reverse_cons, List.append_assoc,
      List.singleton_append, List.nil_append, List.append_eq]
    rw [ih (c :: ctx)]
    rw [Bool.and_assoc]

theorem passThrough_top2 (p : List Char) (x y : Char) (l l2 : List Char) :
    passThrough (x :: y :: l) p = passThrough (x :: y :: l2) p := by
  induction p generalizing x y l l2 with
  | nil => rfl
  | cons c t ih =>
    simp only [passThrough]
    rw [bdry_top2 x y l l2, ih c x (y :: l) (y :: l2)]

theorem passThrough_ctx_one (p : List Char) (a : Char) (ctx : List Char)
    (hctx : isPunctCh (ctx.headD ' ') = false) :
    passThrough (a :: ctx) p = passThrough [a] p := by
  cases p with
  | nil => rfl
  | cons b p2 =>
    simp only [passThrough]
    rw [bdry_cons_nonpunct a ctx hctx, passThrough_top2 p2 b a ctx []]

theorem passThrough_ctx_nil (p : List Char) (hp : isSpaceCh (p.headD 'a') = false)
    (ctx : List Char) (hctx : isPunctCh (ctx.headD ' ') = false) :
    passThrough ctx p = passThrough [] p := by
  cases p with
  | nil => rfl
  | cons a p2 =>
    simp only [List.headD_cons] at hp
    simp only [passThrough, hp, Bool.false_and, Bool.not_false, Bool.true_and, bdry,
      Bool.and_false]
    exact passThrough_ctx_one p2 a ctx hctx

theorem rawSplit_ne_nil (rest ctx cur : List Char) : rawSplit ctx cur rest ≠ [] := by
  induction rest generalizing ctx cur with
  | nil => simp [rawSplit]
  | cons c cs ih =>
    rw [rawSplit]
    by_cases h : isSpaceCh c && bdry ctx
    · rw [if_pos h]; simp
    · rw [if_neg h]; exact ih _ _

theorem rawSplit_pass (p : List Char) :
    ∀ (ctx cur tail : List Char), passThrough ctx p = true →
      rawSplit ctx cur (p ++ tail) = rawSplit (p.reverse ++ ctx) (p.reverse ++ cur) tail := by
  induction p with
  | nil => intro ctx cur tail _; simp
  | cons c p2 ih =>
    intro ctx cur tail hpass
    simp only [passThrough, Bool.and_eq_true, Bool.not_eq_true'] at hpass
    obtain ⟨h1, h2⟩ := hpass
    simp only [List.cons_append]
    rw [rawSplit, if_neg (by rw [h1]; simp)]
    rw [ih (c :: ctx) (c :: cur) tail h2]
    simp [List.append_assoc]

/- C2: strip behaviour on pieces -/

theorem headD_reverse_eq_getLastD (l : List Char) (d : Char) :
    l.reverse.headD d = l.getLastD d := by
  rw [List.headD_eq_head?_getD, List.head?_reverse, List.getLastD_eq_getLast?]

theorem dropWhile_headD_false (p : Char → Bool) (l : List Char) (d : Char)
    (hne : l.dropWhile p ≠ []) : p ((l.dropWhile p).headD d) = false := by
  induction l with
  | nil => exact absurd rfl hne
  | cons c t ih =>
    rw [List.dropWhile_cons] at hne ⊢
    by_cases hc : p c
    · rw [if_pos hc] at hne ⊢
      exact ih hne
    · rw [if_neg hc] at hne ⊢
      simp only [List.headD_cons]
      exact Bool.of_not_eq_true hc

theorem dropWhile_eq_self_of_headD (p : Char → Bool) (l : List Char)
    (h : ∀ c t, l = c :: t → p c = false) : l.dropWhile p = l := by
  cases l with
  | nil => rfl
  | cons c t =>
    rw [List.dropWhile_cons, if_neg (by rw [h c t rfl]; simp)]

theorem getLastD_suffix (l2 l1 : List Char) (h : l2 <:+ l1) (hne : l2 ≠ []) (d : Char) :
    l1.getLastD d = l2.getLastD d := by
  obtain ⟨pre, rfl⟩ := h
  rw [List.getLastD_eq_getLast?, List.getLastD_eq_getLast?,
    List.getLast?_append_of_ne_nil _ hne]

theorem stripT_decompose (l : Text) :
    ∃ u v, l = u ++ (stripT l ++ v) ∧ (∀ c ∈ u, isSpaceCh c = true) ∧
      (∀ c ∈ v, isSpaceCh c = true) := by
  refine ⟨l.takeWhile isSpaceCh,
    ((l.dropWhile isSpaceCh).reverse.takeWhile isSpaceCh).reverse, ?_, ?_, ?_⟩
  · have h2 : l.dropWhile isSpaceCh
        = stripT l ++ ((l.dropWhile isSpaceCh).reverse.takeWhile isSpaceCh).reverse := by
      calc l.dropWhile isSpaceCh
          = (l.dropWhile isSpaceCh).reverse.reverse := (List.reverse_reverse _).symm
        _ = ((l.dropWhile isSpaceCh).reverse.takeWhile isSpaceCh
              ++ (l.dropWhile isSpaceCh).reverse.dropWhile isSpaceCh).reverse := by
            rw [List.takeWhile_append_dropWhile]
        _ = stripT l
              ++ ((l.dropWhile isSpaceCh).reverse.takeWhile isSpaceCh).reverse := by
            rw [List.reverse_append]
            rfl
    conv_lhs => rw [← List.takeWhile_append_dropWhile (p := isSpaceCh) (l := l)]
    exact congrArg (fun x => l.takeWhile isSpaceCh ++ x) h2
  · intro c hc
    exact List.mem_takeWhile_imp hc
  · intro c hc
    rw [List.mem_reverse] at hc
    exact List.mem_takeWhile_imp hc

theorem stripT_head_last (l : Text) (hne : stripT l ≠ []) :
    isSpaceCh ((stripT l).headD 'a') = false ∧
    isSpaceCh ((stripT l).getLastD 'a') = false := by
  unfold stripT at hne ⊢
  constructor
  · rw [show ((l.dropWhile isSpaceCh).reverse.dropWhile isSpaceCh).reverse.headD 'a'
        = ((l.dropWhile isSpaceCh).reverse.dropWhile isSpaceCh).getLastD 'a'
      from headD_reverse_eq_getLastD _ _]
    have hsub : (l.dropWhile isSpaceCh).reverse.dropWhile isSpaceCh
        <:+ (l.dropWhile isSpaceCh).reverse := List.dropWhile_suffix _
    have hcore : (l.dropWhile isSpaceCh).reverse.dropWhile isSpaceCh ≠ [] := by
      intro h0
      rw [h0] at hne
      exact hne rfl
    rw [← getLastD_suffix _ _ hsub hcore]
    rw [← headD_reverse_eq_getLastD]
    rw [List.reverse_reverse]
    apply dropWhile_headD_false
    intro h0
    rw [h0] at hne
    simp at hne
  · rw [show ((l.dropWhile isSpaceCh).reverse.dropWhile isSpaceCh).reverse.getLastD 'a'
        = ((l.dropWhile isSpaceCh).reverse.dropWhile isSpaceCh).headD 'a' by
      rw [← headD_reverse_eq_getLastD, List.reverse_reverse]]
    apply dropWhile_headD_false
    intro h0
    rw [h0] at hne
    exact hne rfl

/- C2: every split piece is well formed -/

theorem rawSplit_pieces :
    ∀ (rest ctx cur old : List Char), ctx = cur ++ old →
      isSpaceCh (old.headD ' ') = true → passThrough old cur.reverse = true →
      ∀ p ∈ rawSplit ctx cur rest,
        ∃ o2, isSpaceCh (o2.headD ' ') = true ∧ passThrough o2 p = true := by
  intro rest
  induction rest with
  | nil =>
    intro ctx cur old hctx hold hpass p hp
    rw [rawSplit] at hp
    have : p = cur.reverse := by simpa using hp
    subst this
    exact ⟨old, hold, hpass⟩
  | cons c cs ih =>
    intro ctx cur old hctx hold hpass p hp
    rw [rawSplit] at hp
    by_cases hfire : isSpaceCh c && bdry ctx
    · rw [if_pos hfire] at hp
      rcases List.mem_cons.mp hp with h | h
      · subst h
        exact ⟨old, hold, hpass⟩
      · rw [Bool.and_eq_true] at hfire
        exact ih (c :: ctx) [] (c :: ctx) rfl (by simpa using hfire.1) rfl p h
    · rw [if_neg hfire] at hp
      apply ih (c :: ctx) (c :: cur) old (by rw [hctx]; rfl) hold _ p hp
      rw [List.reverse_cons, passThrough_append, hpass, Bool.true_and]
      simp only [passThrough, List.reverse_reverse, Bool.and_true]
      rw [← hctx]
      rw [Bool.of_not_eq_true hfire]
      rfl

theorem split_pieces_ok (t : Text) : ∀ p ∈ split_into_sentences t, pieceOKb p = true := by
  intro p hp
  unfold split_into_sentences at hp
  rw [List.mem_filter] at hp
  obtain ⟨hp1, hne⟩ := hp
  rw [List.mem_map] at hp1
  obtain ⟨rp, hrp, rfl⟩ := hp1
  have hne2 : stripT rp ≠ [] := by
    intro h0
    rw [h0] at hne
    simp at hne
  obtain ⟨o2, ho2, hpass⟩ := rawSplit_pieces t [] [] [] rfl (by rfl) (by rfl) rp hrp
  obtain ⟨hhead, hlast⟩ := stripT_head_last rp hne2
  unfold pieceOKb
  rw [hhead, hlast]
  simp only [Bool.not_false, Bool.true_and, Bool.and_true]
  have hne3 : (!(stripT rp).isEmpty) = true := by
    cases h : stripT rp with
    | nil => exact absurd h hne2
    | cons a b => simp
  rw [hne3, Bool.true_and]
  obtain ⟨u, v, hdec, hu, hv⟩ := stripT_decompose rp
  rw [hdec] at hpass
  rw [passThrough_append, Bool.and_eq_true] at hpass
  obtain ⟨hpass1, hpass2⟩ := hpass
  rw [passThrough_append, Bool.and_eq_true] at hpass2
  obtain ⟨hpass3, _⟩ := hpass2
  rw [← hpass3]
  symm
  apply passThrough_ctx_nil _ hhead
  cases hur : u.reverse with
  | nil => simpa [hur] using (space_not_punct _ ho2)
  | cons x xs =>
    have hx : x ∈ u := by
      rw [← List.mem_reverse, hur]
      exact List.mem_cons_self _ _
    simpa [hur] using space_not_punct x (hu x hx)

/- C2: every non-final split piece ends in a boundary -/

theorem bdry_append_cur (cur old : List Char) (hcur : cur ≠ [])
    (hold : isSpaceCh (old.headD ' ') = true) : bdry (cur ++ old) = bdry cur := by
  exact bdry_append_space_tail cur old hcur hold

theorem rawSplit_dropLast_terminal :
    ∀ (rest ctx cur old : List Char), ctx = cur ++ old →
      isSpaceCh (old.headD ' ') = true →
      ∀ p ∈ (rawSplit ctx cur rest).dropLast,
        p ≠ [] ∧ isSpaceCh (p.reverse.headD 'a') = false ∧ bdry p.reverse = true := by
  intro rest
  induction rest with
  | nil =>
    intro ctx cur old hctx hold p hp
    rw [rawSplit] at hp
    simp at hp
  | cons c cs ih =>
    intro ctx cur old hctx hold p hp
    rw [rawSplit] at hp
    by_cases hfire : isSpaceCh c && bdry ctx
    · rw [if_pos hfire] at hp
      rw [Bool.and_eq_true] at hfire
      have hcur : cur ≠ [] := by
        intro h0
        rw [h0, List.nil_append] at hctx
        have h2 := hfire.2
        rw [hctx, bdry_space_head old hold] at h2
        exact absurd h2 (by simp)
      have hbc : bdry cur = true := by
        have := hfire.2
        rw [hctx, bdry_append_cur cur old hcur hold] at this
        exact this
      rw [List.dropLast_cons_of_ne_nil (rawSplit_ne_nil _ _ _)] at hp
      rcases List.mem_cons.mp hp with h | h
      · subst h
        refine ⟨by simpa using hcur, ?_, by rwa [List.reverse_reverse]⟩
        rw [List.reverse_reverse]
        cases cur with
        | nil => exact absurd rfl hcur
        | cons x xs =>
          simp only [List.headD_cons]
          exact bdry_head_not_space x xs hbc
      · exact ih (c :: ctx) [] (c :: ctx) rfl (by simpa using hfire.1) p h
    · rw [if_neg hfire] at hp
      exact ih (c :: ctx) (c :: cur) old (by rw [hctx]; rfl) hold p hp

theorem stripT_terminal_preserved (p : List Char) (hne : p ≠ [])
    (hlast : isSpaceCh (p.reverse.headD 'a') = false) (hb : bdry p.reverse = true) :
    stripT p ≠ [] ∧ bdry (stripT p).reverse = true := by
  have hdw : p.dropWhile isSpaceCh ≠ [] := by
    intro h0
    have hall : ∀ c ∈ p, isSpaceCh c = true := by
      have := List.takeWhile_append_dropWhile (p := isSpaceCh) (l := p)
      rw [h0, List.append_nil] at this
      intro c hc
      rw [← this] at hc
      exact List.mem_takeWhile_imp hc
    cases hpr : p.reverse with
    | nil =>
      have : p = [] := by
        have := congrArg List.reverse hpr
        rwa [List.reverse_reverse] at this
      exact hne this
    | cons x xs =>
      have hx : x ∈ p := by
        rw [← List.mem_reverse, hpr]
        exact List.mem_cons_self _ _
      rw [hpr] at hlast
      simp only [List.headD_cons] at hlast
      rw [hall x hx] at hlast
      exact absurd hlast (by simp)
  have hrev : p.reverse = (p.dropWhile isSpaceCh).reverse
      ++ (p.takeWhile isSpaceCh).reverse := by
    rw [← List.reverse_append, List.takeWhile_append_dropWhile]
  have hdwrev : (p.dropWhile isSpaceCh).reverse ≠ [] := by
    simpa using hdw
  have hheadsame : (p.dropWhile isSpaceCh).reverse.headD 'a' = p.reverse.headD 'a' := by
    rw [hrev]
    cases hd : (p.dropWhile isSpaceCh).reverse with
    | nil => exact absurd hd hdwrev
    | cons x xs => rfl
  have hstrip : stripT p = p.dropWhile isSpaceCh := by
    unfold stripT
    rw [dropWhile_eq_self_of_headD]
    · rw [List.reverse_reverse]
    · intro c t hct
      have : (p.dropWhile isSpaceCh).reverse.headD 'a' = c := by rw [hct]; rfl
      rw [hheadsame] at this
      rw [← this]
      exact hlast
  refine ⟨by rw [hstrip]; exact hdw, ?_⟩
  rw [hstrip]
  have htk : isSpaceCh ((p.takeWhile isSpaceCh).reverse.headD ' ') = true := by
    cases ht : (p.takeWhile isSpaceCh).reverse with
    | nil => rfl
    | cons x xs =>
      have hx : x ∈ p.takeWhile isSpaceCh := by
        rw [← List.mem_reverse, ht]
        exact List.mem_cons_self _ _
      simpa using List.mem_takeWhile_imp hx
  rw [hrev, bdry_append_space_tail _ _ hdwrev htk] at hb
  exact hb

theorem split_dropLast_terminal (t : Text) :
    ∀ p ∈ (split_into_sentences t).dropLast, terminalb p = true := by
  intro p hp
  unfold split_into_sentences at hp
  have hraw := rawSplit_ne_nil t [] []
  set raw := rawSplit [] [] t with hrawdef
  have hterm := rawSplit_dropLast_terminal t [] [] [] rfl (by rfl)
  rw [← hrawdef] at hterm
  have hsplit : raw = raw.dropLast ++ [raw.getLast hraw] :=
    (List.dropLast_append_getLast hraw).symm
  have hmapped : (raw.map stripT).filter (fun s => !s.isEmpty)
      = ((raw.dropLast.map stripT).filter (fun s => !s.isEmpty))
        ++ ([stripT (raw.getLast hraw)].filter (fun s => !s.isEmpty)) := by
    conv_lhs => rw [hsplit]
    rw [List.map_append, List.filter_append]
    rfl
  have hkeep : (raw.dropLast.map stripT).filter (fun s => !s.isEmpty)
      = raw.dropLast.map stripT := by
    rw [List.filter_eq_self]
    intro a ha
    rw [List.mem_map] at ha
    obtain ⟨rp, hrp, rfl⟩ := ha
    obtain ⟨h1, h2, h3⟩ := hterm rp hrp
    obtain ⟨h4, _⟩ := stripT_terminal_preserved rp h1 h2 h3
    cases h : stripT rp with
    | nil => exact absurd h h4
    | cons a b => simp
  have hptl : ∀ x ∈ raw.dropLast.map stripT, terminalb x = true := by
    intro x hx
    rw [List.mem_map] at hx
    obtain ⟨rp, hrp, rfl⟩ := hx
    obtain ⟨h1, h2, h3⟩ := hterm rp hrp
    exact (stripT_terminal_preserved rp h1 h2 h3).2
  rw [hmapped, hkeep] at hp
  by_cases hlastkeep : (!(stripT (raw.getLast hraw)).isEmpty) = true
  · rw [List.filter_cons, if_pos (by simpa using hlastkeep)] at hp
    simp only [List.filter_nil] at hp
    rw [List.dropLast_concat] at hp
    exact hptl p hp
  · rw [List.filter_cons, if_neg (by simpa using hlastkeep)] at hp
    simp only [List.filter_nil, List.append_nil] at hp
    exact hptl p (List.mem_of_mem_dropLast hp)

/- C2: joining well-formed pieces splits back to the pieces -/

theorem pieceOKb_parts (p : Text) (h : pieceOKb p = true) :
    p ≠ [] ∧ isSpaceCh (p.headD 'a') = false ∧ isSpaceCh (p.getLastD 'a') = false ∧
      passThrough [] p = true := by
  unfold pieceOKb at h
  rw [Bool.and_eq_true, Bool.and_eq_true, Bool.and_eq_true] at h
  obtain ⟨⟨⟨h1, h2⟩, h3⟩, h4⟩ := h
  refine ⟨?_, ?_, ?_, h4⟩
  · intro h0
    rw [h0] at h1
    simp at h1
  · simpa using h2
  · simpa using h3

theorem stripT_id (p : Text) (hh : isSpaceCh (p.headD 'a') = false)
    (hl : isSpaceCh (p.getLastD 'a') = false) : stripT p = p := by
  unfold stripT
  rw [dropWhile_eq_self_of_headD _ p (by
    intro c t hct
    rw [hct] at hh
    simpa using hh)]
  rw [dropWhile_eq_self_of_headD]
  · exact List.reverse_reverse p
  · intro c t hct
    have hc : p.reverse.headD 'a' = c := by rw [hct]; rfl
    rw [headD_reverse_eq_getLastD] at hc
    rw [← hc]
    exact hl

theorem stripT_cons_space (p : Text) : stripT (' ' :: p) = stripT p := by
  unfold stripT
  rw [List.dropWhile_cons, if_pos (by rfl)]

theorem map_stripT_id (l : List Text) (h : ∀ x ∈ l, stripT x = x) :
    l.map stripT = l := by
  induction l with
  | nil => rfl
  | cons a t ih =>
    rw [List.map_cons, h a (List.mem_cons_self _ _),
      ih (fun x hx => h x (List.mem_cons_of_mem _ hx))]

theorem rawSplit_join :
    ∀ (gtail : List Text) (p : Text) (ctx ws : List Char),
      (∀ x ∈ p :: gtail, pieceOKb x = true) →
      (∀ x ∈ (p :: gtail).dropLast, terminalb x = true) →
      isSpaceCh (ctx.headD ' ') = true →
      (∀ c ∈ ws, isSpaceCh c = true) →
      rawSplit ctx ws (joinSp (p :: gtail)) = (ws.reverse ++ p) :: gtail := by
  intro gtail
  induction gtail with
  | nil =>
    intro p ctx ws hok hterm hctx _
    rw [joinSp_singleton]
    obtain ⟨hp1, hp2, _, hp4⟩ := pieceOKb_parts p (hok p (List.mem_cons_self _ _))
    have hpass : passThrough ctx p = true := by
      rw [passThrough_ctx_nil p hp2 ctx (space_not_punct _ hctx)]
      exact hp4
    have hstep := rawSplit_pass p ctx ws [] hpass
    rw [List.append_nil] at hstep
    rw [hstep, rawSplit, List.reverse_append, List.reverse_reverse]
  | cons g2 gt ih =>
    intro p ctx ws hok hterm hctx hws
    rw [joinSp_cons_cons]
    obtain ⟨hp1, hp2, _, hp4⟩ := pieceOKb_parts p (hok p (List.mem_cons_self _ _))
    have hpass : passThrough ctx p = true := by
      rw [passThrough_ctx_nil p hp2 ctx (space_not_punct _ hctx)]
      exact hp4
    rw [rawSplit_pass p ctx ws (' ' :: joinSp (g2 :: gt)) hpass]
    rw [rawSplit]
    have hprevne : p.reverse ≠ [] := by simpa using hp1
    have hfire : (isSpaceCh ' ' && bdry (p.reverse ++ ctx)) = true := by
      rw [bdry_append_space_tail p.reverse ctx hprevne hctx]
      have ht : terminalb p = true := by
        apply hterm p
        rw [List.dropLast_cons_of_ne_nil (by simp : (g2 :: gt) ≠ [])]
        exact List.mem_cons_self _ _
      unfold terminalb at ht
      rw [ht]
      rfl
    rw [if_pos hfire]
    have hih := ih g2 (' ' :: (p.reverse ++ ctx)) []
      (fun x hx => hok x (List.mem_cons_of_mem _ hx))
      (by
        intro x hx
        apply hterm x
        rw [List.dropLast_cons_of_ne_nil (by simp : (g2 :: gt) ≠ [])]
        exact List.mem_cons_of_mem _ hx)
      (by rfl)
      (by intro c hc; simp at hc)
    rw [hih]
    rw [List.reverse_append, List.reverse_reverse, List.reverse_nil, List.nil_append]

theorem split_join (gl : List Text) (hne : gl ≠ [])
    (hok : ∀ x ∈ gl, pieceOKb x = true)
    (hterm : ∀ x ∈ gl.dropLast, terminalb x = true) :
    split_into_sentences (joinSp gl) = gl := by
  cases gl with
  | nil => exact absurd rfl hne
  | cons p gt =>
    unfold split_into_sentences
    rw [rawSplit_join gt p [] [] hok hterm (by rfl) (by intro c hc; simp at hc)]
    rw [List.reverse_nil, List.nil_append]
    have hmap : (p :: gt).map stripT = p :: gt := by
      apply map_stripT_id
      intro x hx
      obtain ⟨_, h2, h3, _⟩ := pieceOKb_parts x (hok x hx)
      exact stripT_id x h2 h3
    rw [hmap, List.filter_eq_self]
    intro a ha
    obtain ⟨h1, _, _, _⟩ := pieceOKb_parts a (hok a ha)
    cases h : a with
    | nil => exact absurd h h1
    | cons x xs => simp

theorem split_space_join (gl : List Text) (hne : gl ≠ [])
    (hok : ∀ x ∈ gl, pieceOKb x = true)
    (hterm : ∀ x ∈ gl.dropLast, terminalb x = true) :
    split_into_sentences (' ' :: joinSp gl) = gl := by
  cases gl with
  | nil => exact absurd rfl hne
  | cons p gt =>
    unfold split_into_sentences
    rw [rawSplit]
    rw [if_neg (by simp [bdry])]
    have hws : ∀ c ∈ [' '], isSpaceCh c = true := by
      intro c hc
      simp at hc
      rw [hc]
      rfl
    rw [rawSplit_join gt p [' '] [' '] hok hterm (by rfl) hws]
    simp only [List.reverse_cons, List.reverse_nil, List.nil_append, List.singleton_append,
      List.map_cons, stripT_cons_space]
    have hmap : gt.map stripT = gt := by
      apply map_stripT_id
      intro x hx
      obtain ⟨_, h2, h3, _⟩ := pieceOKb_parts x (hok x (List.mem_cons_of_mem _ hx))
      exact stripT_id x h2 h3
    obtain ⟨hp1, hp2, hp3, _⟩ := pieceOKb_parts p (hok p (List.mem_cons_self _ _))
    rw [stripT_id p hp2 hp3, hmap, List.filter_eq_self]
    intro a ha
    obtain ⟨h1, _, _, _⟩ := pieceOKb_parts a (hok a ha)
    cases h : a with
    | nil => exact absurd h h1
    | cons x xs => simp

/- C2: the packing loop partitions the sentence list into groups -/

theorem joinSp_append (u v : List Text) (hu : u ≠ []) (hv : v ≠ []) :
    joinSp (u ++ v) = joinSp u ++ ' ' :: joinSp v := by
  induction u with
  | nil => exact absurd rfl hu
  | cons x t ih =>
    cases t with
    | nil =>
      cases v with
      | nil => exact absurd rfl hv
      | cons y vt =>
        rw [List.singleton_append, joinSp_cons_cons, joinSp_singleton]
    | cons x2 t2 =>
      simp only [List.cons_append] at ih ⊢
      rw [joinSp_cons_cons x x2 (t2 ++ v), joinSp_cons_cons x x2 t2, ih (by simp)]
      simp [List.append_assoc]

theorem packSents_groups (tok : Tok) (q : Text) (avail : Nat) :
    ∀ (ss : List Text) (gs : List (List Text)) (cur : List Text) (ct : Nat),
      (∀ s ∈ ss, tok s ≤ avail) →
      ∃ (gs2 : List (List Text)) (cur2 : List Text) (ct2 : Nat),
        packSents tok q avail (gs.map (fun g => (q, joinSp g))) cur ct ss
          = (gs2.map (fun g => (q, joinSp g)), cur2, ct2) ∧
        (gs2.flatten ++ cur2 = gs.flatten ++ cur ++ ss) ∧
        ((∀ g ∈ gs, g ≠ []) → (cur = [] → cur2 = [] ∨ cur2 ≠ []) → ∀ g ∈ gs2, g ≠ []) := by
  intro ss
  induction ss with
  | nil =>
    intro gs cur ct _
    refine ⟨gs, cur, ct, by rw [packSents], by rw [List.append_nil], ?_⟩
    intro hgs _ g hg
    exact hgs g hg
  | cons s ss2 ih =>
    intro gs cur ct hs
    rw [packSents]
    by_cases hfit : ct + tok s ≤ avail
    · rw [if_pos hfit]
      obtain ⟨gs2, cur2, ct2, h1, h2, h3⟩ :=
        ih gs (cur ++ [s]) (ct + tok s) (fun x hx => hs x (List.mem_cons_of_mem _ hx))
      refine ⟨gs2, cur2, ct2, h1, ?_, ?_⟩
      · rw [h2]
        simp [List.append_assoc]
      · intro hgs hc
        apply h3 hgs
        intro hce
        simp at hce
    · rw [if_neg hfit]
      have hsle : tok s ≤ avail := hs s (List.mem_cons_self _ _)
      rw [if_neg (by omega)]
      by_cases hce : cur.isEmpty
      · rw [if_pos hce]
        have hcur : cur = [] := by simpa using hce
        subst hcur
        obtain ⟨gs2, cur2, ct2, h1, h2, h3⟩ :=
          ih gs [s] (tok s) (fun x hx => hs x (List.mem_cons_of_mem _ hx))
        refine ⟨gs2, cur2, ct2, h1, ?_, ?_⟩
        · rw [h2]
          simp
        · intro hgs hc
          apply h3 hgs
          intro hce2
          simp at hce2
      · rw [if_neg hce]
        have hcur : cur ≠ [] := by simpa using hce
        have hmap : (gs.map (fun g => (q, joinSp g))) ++ [(q, joinSp cur)]
            = (gs ++ [cur]).map (fun g => (q, joinSp g)) := by
          rw [List.map_append]
          rfl
        rw [hmap]
        obtain ⟨gs2, cur2, ct2, h1, h2, h3⟩ :=
          ih (gs ++ [cur]) [s] (tok s) (fun x hx => hs x (List.mem_cons_of_mem _ hx))
        refine ⟨gs2, cur2, ct2, h1, ?_, ?_⟩
        · rw [h2]
          simp [List.append_assoc]
        · intro hgs hc
          apply h3
          · intro g hg
            rcases List.mem_append.mp hg with h | h
            · exact hgs g h
            · have : g = cur := by simpa using h
              rw [this]
              exact hcur
          · intro hce2
            simp at hce2

theorem rawChunks_groups (tok : Tok) (q : Text) (avail : Nat) (sents : List Text)
    (hs : ∀ s ∈ sents, tok s ≤ avail) :
    ∃ gs : List (List Text),
      rawChunks tok q avail sents = gs.map (fun g => (q, joinSp g)) ∧
      (∀ g ∈ gs, g ≠ []) ∧ gs.flatten = sents := by
  obtain ⟨gs2, cur2, ct2, h1, h2, h3⟩ :=
    packSents_groups tok q avail sents ([] : List (List Text)) [] 0 hs
  rw [List.map_nil] at h1
  have h3b : ∀ g ∈ gs2, g ≠ [] := h3 (by intro g hg; simp at hg) (fun _ => by tauto)
  simp only [List.flatten_nil, List.nil_append] at h2
  unfold rawChunks
  rw [h1]
  by_cases hc : cur2.isEmpty
  · simp only [hc, if_true]
    have hcur : cur2 = [] := by simpa using hc
    subst hcur
    rw [List.append_nil] at h2
    exact ⟨gs2, rfl, h3b, h2⟩
  · simp only [hc, if_false]
    have hcur : cur2 ≠ [] := by simpa using hc
    refine ⟨gs2 ++ [cur2], ?_, ?_, ?_⟩
    · rw [List.map_append]
      rfl
    · intro g hg
      rcases List.mem_append.mp hg with h | h
      · exact h3b g h
      · have : g = cur2 := by simpa using h
        rw [this]
        exact hcur
    · rw [List.flatten_append]
      simpa using h2

/- C2: the overlap step on a pair of adjacent groups -/

theorem trimmedOverlap_suffix (tok : Tok) (qt maxt : Nat) (curr : Text) :
    ∀ os, trimmedOverlap tok qt maxt curr os <:+ os := by
  intro os
  induction os with
  | nil => simp [trimmedOverlap]
  | cons h t ih =>
    rw [trimmedOverlap]
    by_cases hc : maxt < tok (joinSp (h :: t) ++ ' ' :: curr) + qt
    · rw [if_pos hc]
      exact ih.trans (List.suffix_cons h t)
    · rw [if_neg hc]

theorem mem_dropLast_flatten (gs pre post : List (List Text)) (g : List Text)
    (heq : gs = pre ++ g :: post) (hg : g ≠ []) :
    (∀ x ∈ g.dropLast, x ∈ gs.flatten.dropLast) ∧
    (post.flatten ≠ [] → ∀ x ∈ g, x ∈ gs.flatten.dropLast) := by
  have hflat : gs.flatten = pre.flatten ++ (g ++ post.flatten) := by
    rw [heq, List.flatten_append, List.flatten_cons]
  have hB : g ++ post.flatten ≠ [] := by
    intro h0
    rw [List.append_eq_nil] at h0
    exact hg h0.1
  constructor
  · intro x hx
    rw [hflat, List.dropLast_append_of_ne_nil _ hB]
    apply List.mem_append_right
    cases hpf : post.flatten with
    | nil =>
      rw [List.append_nil]
      exact hx
    | cons z zs =>
      rw [List.dropLast_append_cons]
      exact List.mem_append_left _ (List.mem_of_mem_dropLast hx)
  · intro hpf x hx
    rw [hflat, List.dropLast_append_of_ne_nil _ hB]
    apply List.mem_append_right
    rw [List.dropLast_append_of_ne_nil _ hpf]
    exact List.mem_append_left _ hx

theorem zip_tail_adjacent (l : List (List Text)) :
    ∀ pg ∈ l.zip l.tail, ∃ pre post, l = pre ++ pg.1 :: pg.2 :: post := by
  induction l with
  | nil => simp
  | cons x t ih =>
    cases t with
    | nil => simp
    | cons y t2 =>
      intro pg hpg
      simp only [List.tail_cons] at hpg ih
      rw [show (x :: y :: t2).zip (y :: t2) = (x, y) :: ((y :: t2).zip t2) from rfl] at hpg
      rcases List.mem_cons.mp hpg with h | h
      · subst h
        exact ⟨[], t2, by simp⟩
      · obtain ⟨pre, post, hpp⟩ := ih pg h
        exact ⟨x :: pre, post, by rw [List.cons_append, ← hpp]⟩

theorem overlapStep_split (tok : Tok) (qt maxt : Nat) (r : ℚ) (gPrev gCurr : List Text)
    (hgp : gPrev ≠ []) (hgc : gCurr ≠ [])
    (hokP : ∀ p ∈ gPrev, pieceOKb p = true) (hokC : ∀ p ∈ gCurr, pieceOKb p = true)
    (htP : ∀ p ∈ gPrev, terminalb p = true)
    (htC : ∀ p ∈ gCurr.dropLast, terminalb p = true) :
    trimmedOverlap tok qt maxt (joinSp gCurr) (overlapSel r (joinSp gPrev)) <:+ gPrev ∧
    split_into_sentences (overlapStep tok qt maxt r (joinSp gPrev) (joinSp gCurr))
      = trimmedOverlap tok qt maxt (joinSp gCurr) (overlapSel r (joinSp gPrev)) ++ gCurr := by
  have hsplitP : split_into_sentences (joinSp gPrev) = gPrev :=
    split_join gPrev hgp hokP (fun x hx => htP x (List.mem_of_mem_dropLast hx))
  have hsel : overlapSel r (joinSp gPrev) <:+ gPrev := by
    unfold overlapSel
    rw [hsplitP]
    by_cases h : max 1 (truncMulNat gPrev.length r) < gPrev.length
    · rw [if_pos h]
      exact List.drop_suffix _ _
    · rw [if_neg h]
  have hov : trimmedOverlap tok qt maxt (joinSp gCurr) (overlapSel r (joinSp gPrev))
      <:+ gPrev := (trimmedOverlap_suffix tok qt maxt (joinSp gCurr) _).trans hsel
  refine ⟨hov, ?_⟩
  unfold overlapStep
  by_cases hosn : trimmedOverlap tok qt maxt (joinSp gCurr) (overlapSel r (joinSp gPrev)) = []
  · rw [hosn, joinSp_nil, List.nil_append, List.nil_append]
    exact split_space_join gCurr hgc hokC htC
  · rw [← joinSp_append _ _ hosn hgc]
    apply split_join
    · intro h0
      rw [List.append_eq_nil] at h0
      exact hgc h0.2
    · intro x hx
      rcases List.mem_append.mp hx with h | h
      · exact hokP x (hov.subset h)
      · exact hokC x h
    · intro x hx
      rw [List.dropLast_append_of_ne_nil _ hgc] at hx
      rcases List.mem_append.mp hx with h | h
      · exact htP x (hov.subset h)
      · exact htC x h

/- C2: assembly of the round-trip property -/

theorem adjacent_overlap_facts (tok : Tok) (qt maxt : Nat) (r : ℚ)
    (gs : List (List Text)) (a : Text)
    (hne : ∀ g ∈ gs, g ≠ [])
    (hflat : gs.flatten = split_into_sentences a) :
    ∀ pg ∈ gs.zip gs.tail,
      trimmedOverlap tok qt maxt (joinSp pg.2) (overlapSel r (joinSp pg.1)) <:+ pg.1 ∧
      split_into_sentences (overlapStep tok qt maxt r (joinSp pg.1) (joinSp pg.2))
        = trimmedOverlap tok qt maxt (joinSp pg.2) (overlapSel r (joinSp pg.1)) ++ pg.2 := by
  intro pg hpg
  obtain ⟨pre, post, heq⟩ := zip_tail_adjacent gs pg hpg
  have h1 : pg.1 ∈ gs := by
    rw [heq]
    exact List.mem_append_right _ (List.mem_cons_self _ _)
  have h2 : pg.2 ∈ gs := by
    rw [heq]
    exact List.mem_append_right _ (List.mem_cons_of_mem _ (List.mem_cons_self _ _))
  have hok : ∀ g ∈ gs, ∀ p ∈ g, pieceOKb p = true := by
    intro g hg p hp
    apply split_pieces_ok a p
    rw [← hflat]
    exact List.mem_flatten.mpr ⟨g, hg, hp⟩
  have hd1 := mem_dropLast_flatten gs pre (pg.2 :: post) pg.1 heq (hne _ h1)
  have htP : ∀ p ∈ pg.1, terminalb p = true := by
    intro p hp
    have hpf : (pg.2 :: post).flatten ≠ [] := by
      rw [List.flatten_cons]
      intro h0
      exact hne _ h2 (List.append_eq_nil.mp h0).1
    have hmem := hd1.2 hpf p hp
    rw [hflat] at hmem
    exact split_dropLast_terminal a p hmem
  have heq2 : gs = (pre ++ [pg.1]) ++ pg.2 :: post := by
    rw [heq]
    simp
  have hd2 := mem_dropLast_flatten gs (pre ++ [pg.1]) post pg.2 heq2 (hne _ h2)
  have htC : ∀ p ∈ pg.2.dropLast, terminalb p = true := by
    intro p hp
    have hmem := hd2.1 p hp
    rw [hflat] at hmem
    exact split_dropLast_terminal a p hmem
  exact overlapStep_split tok qt maxt r pg.1 pg.2 (hne _ h1) (hne _ h2)
    (fun p hp => hok _ h1 p hp) (fun p hp => hok _ h2 p hp) htP htC

theorem zip_map_pair (f : List Text × List Text → List Text) :
    ∀ (t : List (List Text)) (x : List Text),
    (((x :: t).zip t).map f).zip t = ((x :: t).zip t).map (fun pg => (f pg, pg.2)) := by
  intro t
  induction t with
  | nil => intro x; rfl
  | cons y t2 ih =>
    intro x
    simp only [List.zip_cons_cons, List.map_cons]
    rw [ih y]

theorem forall2_zip_tail (q : Text) (tok : Tok) (qt maxt : Nat) (r : ℚ)
    (f : List Text × List Text → List Text) :
    ∀ (t : List (List Text)) (x : List Text),
    (∀ pg ∈ (x :: t).zip t,
      split_into_sentences (overlapStep tok qt maxt r (joinSp pg.1) (joinSp pg.2))
        = f pg ++ pg.2) →
    List.Forall₂ (fun (c : Chunk) (oc : List Text × List Text) =>
        split_into_sentences c.2 = oc.1 ++ oc.2)
      (((x :: t).zip t).map
        (fun pg => (q, overlapStep tok qt maxt r (joinSp pg.1) (joinSp pg.2))))
      (((x :: t).zip t).map (fun pg => (f pg, pg.2))) := by
  intro t
  induction t with
  | nil => intro x _; exact List.Forall₂.nil
  | cons y t2 ih =>
    intro x hP
    simp only [List.zip_cons_cons, List.map_cons]
    refine List.Forall₂.cons ?_ (ih y (fun pg hpg => hP pg (List.mem_cons_of_mem _ hpg)))
    show split_into_sentences (overlapStep tok qt maxt r (joinSp x) (joinSp y))
        = f (x, y) ++ y
    exact hP (x, y) (List.mem_cons_self _ _)

theorem chain_zip_tail (f : List Text × List Text → List Text) :
    ∀ (t : List (List Text)) (x ov : List Text),
    (∀ pg ∈ (x :: t).zip t, f pg <:+ pg.1) →
    List.Chain' (fun p1 p2 : List Text × List Text => p2.1 <:+ p1.2)
      ((ov, x) :: ((x :: t).zip t).map (fun pg => (f pg, pg.2))) := by
  intro t
  induction t with
  | nil => intro x ov _; exact List.chain'_singleton _
  | cons y t2 ih =>
    intro x ov hf
    simp only [List.zip_cons_cons, List.map_cons]
    refine List.chain'_cons.mpr ⟨?_, ?_⟩
    · exact hf (x, y) (List.mem_cons_self _ _)
    · exact ih y (f (x, y)) (fun pg hpg => hf pg (List.mem_cons_of_mem _ hpg))

theorem forall2_noOverlap (q : Text) :
    ∀ gs : List (List Text),
    (∀ g ∈ gs, split_into_sentences (joinSp g) = g) →
    List.Forall₂ (fun (c : Chunk) (oc : List Text × List Text) =>
        split_into_sentences c.2 = oc.1 ++ oc.2)
      (gs.map (fun g => (q, joinSp g)))
      ((gs.map (fun _ => ([] : List Text))).zip gs) := by
  intro gs
  induction gs with
  | nil => intro _; exact List.Forall₂.nil
  | cons g t ih =>
    intro h
    simp only [List.map_cons, List.zip_cons_cons]
    refine List.Forall₂.cons ?_ (ih (fun x hx => h x (List.mem_cons_of_mem _ hx)))
    show split_into_sentences (joinSp g) = [] ++ g
    rw [List.nil_append]
    exact h g (List.mem_cons_self g t)

theorem chain_noOverlap : ∀ gs : List (List Text),
    List.Chain' (fun p1 p2 : List Text × List Text => p2.1 <:+ p1.2)
      ((gs.map (fun _ => ([] : List Text))).zip gs) := by
  intro gs
  induction gs with
  | nil => exact List.chain'_nil
  | cons g t ih =>
    cases t with
    | nil => exact List.chain'_singleton _
    | cons g2 t2 =>
      simp only [List.map_cons, List.zip_cons_cons] at ih ⊢
      exact List.chain'_cons.mpr ⟨List.nil_suffix, ih⟩

theorem sentence_groups_join (a : Text) (gs : List (List Text))
    (hne : ∀ g ∈ gs, g ≠ [])
    (hflat : gs.flatten = split_into_sentences a) :
    ∀ g ∈ gs, split_into_sentences (joinSp g) = g := by
  intro g hg
  obtain ⟨pre, post, heq⟩ := List.append_of_mem hg
  apply split_join g (hne g hg)
  · intro p hp
    apply split_pieces_ok a p
    rw [← hflat]
    exact List.mem_flatten.mpr ⟨g, hg, hp⟩
  · intro p hp
    have hmem := (mem_dropLast_flatten gs pre post g heq (hne g hg)).1 p hp
    rw [hflat] at hmem
    exact split_dropLast_terminal a p hmem

theorem roundtrip_noOverlap (q a : Text) (gs : List (List Text))
    (hsj : ∀ g ∈ gs, split_into_sentences (joinSp g) = g)
    (hflat : gs.flatten = split_into_sentences a) :
    roundTripProp a (gs.map (fun g => (q, joinSp g))) := by
  refine ⟨gs.map (fun _ => []), gs, by simp, by simp, ?_, ?_, ?_, hflat⟩
  · exact forall2_noOverlap q gs hsj
  · cases gs <;> rfl
  · exact chain_noOverlap gs

theorem roundtrip_applyOverlap (tok : Tok) (q a : Text) (qt maxt : Nat) (r : ℚ)
    (gs : List (List Text))
    (hne : ∀ g ∈ gs, g ≠ [])
    (hflat : gs.flatten = split_into_sentences a) :
    roundTripProp a (applyOverlap tok q qt maxt r (gs.map (fun g => (q, joinSp g)))) := by
  cases gs with
  | nil => exact ⟨[], [], rfl, rfl, List.Forall₂.nil, rfl, List.chain'_nil, hflat⟩
  | cons g0 gt =>
    have hpair := adjacent_overlap_facts tok qt maxt r (g0 :: gt) a hne hflat
    have hcs : applyOverlap tok q qt maxt r ((g0 :: gt).map (fun g => (q, joinSp g)))
        = (q, joinSp g0) :: ((g0 :: gt).zip gt).map
            (fun pg => (q, overlapStep tok qt maxt r (joinSp pg.1) (joinSp pg.2))) := by
      simp only [List.map_cons, applyOverlap]
      rw [← List.map_cons (fun g => (q, joinSp g)) g0 gt, List.zip_map, List.map_map]
      refine congrArg (List.cons _) (List.map_congr_left ?_)
      intro pg _
      cases pg
      rfl
    rw [hcs]
    refine ⟨[] :: ((g0 :: gt).zip gt).map (fun pg =>
        trimmedOverlap tok qt maxt (joinSp pg.2) (overlapSel r (joinSp pg.1))),
      g0 :: gt, by simp, ?_, ?_, rfl, ?_, hflat⟩
    · simp only [List.length_cons, List.length_map, List.length_zip]
      omega
    · simp only [List.zip_cons_cons]
      rw [zip_map_pair]
      refine List.Forall₂.cons ?_ ?_
      · show split_into_sentences (joinSp g0) = [] ++ g0
        rw [List.nil_append]
        exact sentence_groups_join a (g0 :: gt) hne hflat g0 (List.mem_cons_self _ _)
      · exact forall2_zip_tail q tok qt maxt r _ gt g0 (fun pg hpg => (hpair pg hpg).2)
    · simp only [List.zip_cons_cons]
      rw [zip_map_pair]
      exact chain_zip_tail _ gt g0 [] (fun pg hpg => (hpair pg hpg).1)

/-- C2.  The claim that chunking is a faithful re-grouping of the sentence
split of the answer fails in general (the word-granularity fallback breaks
sentences apart); it does hold whenever every sentence of the answer fits
in the per-chunk budget left after the question.  Each produced chunk's
answer then splits into a prepended overlap part (empty for the first
chunk, a suffix of the previous chunk's core sentences otherwise) followed
by a core part, and the cores concatenate back to exactly the sentence
split of the original answer. -/
theorem chunk_roundtrip_amended (tok : Tok) (q a : Text) (B : Nat) (r : ℚ)
    (Hs : ∀ s ∈ split_into_sentences a, tok s ≤ B - tok q) (cs : List Chunk)
    (hok : chunk_qna_with_overlap tok q a B r = Except.ok cs) :
    roundTripProp a cs := by
  unfold chunk_qna_with_overlap at hok
  by_cases h1 : tok q + tok a ≤ B
  · rw [if_pos h1] at hok
    injection hok with h
    subst h
    refine ⟨[[]], [split_into_sentences a], rfl, rfl, ?_, rfl, ?_, ?_⟩
    · show List.Forall₂ _ [(q, a)] [(([] : List Text), split_into_sentences a)]
      refine List.Forall₂.cons ?_ List.Forall₂.nil
      show split_into_sentences a = [] ++ split_into_sentences a
      rw [List.nil_append]
    · exact List.chain'_singleton _
    · simp
  · rw [if_neg h1] at hok
    by_cases h2 : B / 2 < tok q
    · rw [if_pos h2] at hok
      simp at hok
    · rw [if_neg h2] at hok
      injection hok with h
      subst h
      obtain ⟨gs, hraw, hne, hflat⟩ :=
        rawChunks_groups tok q (B - tok q) (split_into_sentences a) Hs
      simp only [chunkBody]
      rw [hraw]
      by_cases h3 : 1 < (gs.map (fun g => (q, joinSp g))).length ∧ 0 < r
      · rw [if_pos h3]
        exact roundtrip_applyOverlap tok q a (tok q) B r gs hne hflat
      · rw [if_neg h3]
        exact roundtrip_noOverlap q a gs (sentence_groups_join a gs hne hflat) hflat

/-- C2 witness: a five-sentence answer with budget 8 and overlap ratio one
half produces two chunks and the round-trip property holds for them. -/
theorem chunk_roundtrip_amended_witness :
    (∀ s ∈ split_into_sentences (String.toList "a. b. c. d. e."),
      countNonSpace s ≤ 8 - countNonSpace (String.toList "q.")) ∧
    roundTripProp (String.toList "a. b. c. d. e.")
      [(String.toList "q.", String.toList "a. b. c."),
       (String.toList "q.", String.toList "c. d. e.")] :=
  ⟨by decide, chunk_roundtrip_amended countNonSpace (String.toList "q.")
    (String.toList "a. b. c. d. e.") 8 ratHalf (by decide)
    [(String.toList "q.", String.toList "a. b. c."),
     (String.toList "q.", String.toList "c. d. e.")] (by rfl)⟩

/-- C2 counterexample: with question tokens within budget but one sentence
over the available budget, the word-granularity fallback splits the single
sentence of the answer across two chunks, and no assignment of overlap and
core parts satisfies the round-trip property. -/
theorem chunk_roundtrip_counterexample :
    chunk_qna_with_overlap countNonSpace (String.toList "q.")
      (String.toList "abcd efgh.") 8 ratFifth
      = Except.ok [(String.toList "q.", String.toList "abcd"),
                   (String.toList "q.", String.toList " efgh.")] ∧
    ¬ roundTripProp (String.toList "abcd efgh.")
      [(String.toList "q.", String.toList "abcd"),
       (String.toList "q.", String.toList " efgh.")] := by
  refine ⟨by rfl, ?_⟩
  rintro ⟨ovs, cores, hl1, hl2, hf, hh, hc, hfl⟩
  cases ovs with
  | nil => simp at hl1
  | cons o0 ovs1 =>
  cases ovs1 with
  | nil => simp at hl1
  | cons o1 ovs2 =>
  cases ovs2 with
  | cons o2 ovs3 => simp at hl1
  | nil =>
  cases cores with
  | nil => simp at hl2
  | cons c0 cores1 =>
  cases cores1 with
  | nil => simp at hl2
  | cons c1 cores2 =>
  cases cores2 with
  | cons c2 cores3 => simp at hl2
  | nil =>
  simp only [List.zip_cons_cons, List.zip_nil_right] at hf hc
  obtain ⟨h1, hf2⟩ := List.forall₂_cons.mp hf
  obtain ⟨h2, -⟩ := List.forall₂_cons.mp hf2
  have ho0 : o0 = [] := hh
  rw [ho0, List.nil_append] at h1
  have hsp1 : split_into_sentences (String.toList "abcd") = [String.toList "abcd"] := by
    decide
  have hsp2 : split_into_sentences (String.toList " efgh.") = [String.toList "efgh."] := by
    decide
  rw [hsp1] at h1
  rw [hsp2] at h2
  have hc0 : c0 = [String.toList "abcd"] := h1.symm
  have h2b : [String.toList "efgh."] = o1 ++ c1 := h2
  obtain ⟨hr, -⟩ := List.chain'_cons.mp hc
  have hsfx : o1 <:+ c0 := hr
  rw [hc0] at hsfx
  rcases List.suffix_cons_iff.mp hsfx with h | h
  · rw [h] at h2b
    have hcg := congrArg (fun l => l.headD []) h2b
    simp at hcg
  · have ho1 : o1 = [] := List.suffix_nil.mp h
    rw [ho1, List.nil_append] at h2b
    rw [hc0, ← h2b] at hfl
    exact absurd hfl (by decide)
